import Mathlib

/-!
Verification of the capacitated deferred-acceptance matching core of the
College Admissions Matcher (file th2_Marek_Sipek.py).

The embedding models:
  - the batch engine gale_shapley_matching (CollegeAdmissionsApp.gale_shapley_matching);
  - the steppable animation session (CollegeAdmissionsApp._animation_run_step),
    including its append-only history of step records;
  - the sensitivity helpers (_run_adjusted_matching, _count_matching_changes).

Python dictionaries are modelled as insertion-ordered association lists
(the code iterates schools_dict in insertion order when building the final
allocation).  Python sorted(key=...) is modelled by List.mergeSort, which is
stable, as Python sort is.  Python int() on a nonintegral value truncates
toward zero; the score adjustment factor is modelled as a rational number.
The code can raise IndexError (current[0] on an empty list) when a school
with capacity 0 is full while empty; the step function therefore returns an
Option, with none modelling a raised exception.
-/

namespace TH

/-- Student record (dataclass Student): name, ordered preference list of
school names, integer score. -/
structure Student where
  name : String
  preferences : List String
  score : Int
deriving DecidableEq

/-- The mutable per-school state of a run: entry of schools_dict,
a capacity together with the accepted list of (student name, score) pairs. -/
structure SchoolData where
  capacity : Nat
  accepted : List (String × Int)
deriving DecidableEq

/-- The state of the worklist loop of gale_shapley_matching: schools_dict
(insertion-ordered), the unmatched FIFO queue, and pref_index. -/
structure EngineState where
  schools : List (String × SchoolData)
  unmatched : List String
  prefIndex : List (String × Nat)
deriving DecidableEq

/-- Dictionary lookup in an insertion-ordered association list. -/
def lookup {α : Type} (d : List (String × α)) (k : String) : Option α :=
  (d.find? (fun p => p.1 = k)).map (fun p => p.2)

/-- Dictionary update at an existing key (Python d[k] = v for a present key):
replaces the value in place, preserving insertion order. -/
def dictSet {α : Type} (d : List (String × α)) (k : String) (v : α) :
    List (String × α) :=
  d.map (fun p => if p.1 = k then (k, v) else p)

/-- Read of pref_index[name]; every queued name has an entry in reachable
states, so the default is never exercised there. -/
def getIdx (d : List (String × Nat)) (n : String) : Nat :=
  ((d.find? (fun p => p.1 = n)).map (fun p => p.2)).getD 0

/-- Write pref_index[name] = v (key present in all reachable states). -/
def setIdx (d : List (String × Nat)) (n : String) (v : Nat) :
    List (String × Nat) :=
  d.map (fun p => if p.1 = n then (n, v) else p)

/-- Read student_dict[name]["prefs"]; the dictionary is built from the
student list, so under unique names this is the preference list of the
(unique) student with that name. -/
def getPrefs (students : List Student) (n : String) : List String :=
  ((students.find? (fun st => st.name = n)).map (fun st => st.preferences)).getD []

/-- Read student_dict[name]["score"]. -/
def getScore (students : List Student) (n : String) : Int :=
  ((students.find? (fun st => st.name = n)).map (fun st => st.score)).getD 0

/-- Stable ascending insertion by score: the new pair goes after every
already-placed pair of smaller or equal score. -/
def insertAsc (p : String × Int) : List (String × Int) → List (String × Int)
  | [] => [p]
  | q :: l => if q.2 ≤ p.2 then q :: insertAsc p l else p :: q :: l

/-- Python sorted(accepted, key=lambda x: x[1]): stable ascending sort by
score, used to locate the minimum-score accepted pair.  Python sort is
stable, and a stable sort by a key is extensionally unique, so this stable
insertion sort computes exactly the list Python sorted returns. -/
def sortAsc (l : List (String × Int)) : List (String × Int) :=
  l.foldl (fun acc p => insertAsc p acc) []

/-- Stable descending insertion by score: the new pair goes after every
already-placed pair of larger or equal score. -/
def insertDesc (p : String × Int) : List (String × Int) → List (String × Int)
  | [] => [p]
  | q :: l => if p.2 ≤ q.2 then q :: insertDesc p l else p :: q :: l

/-- Python sorted(accepted, key=lambda x: x[1], reverse=True): stable
descending sort by score, used to format the final allocation; stable
exactly as Python sorted with reverse=True (equal keys keep encounter
order). -/
def sortDescByScore (l : List (String × Int)) : List (String × Int) :=
  l.foldl (fun acc p => insertDesc p acc) []

/-- One iteration of the while-unmatched loop of gale_shapley_matching,
processing the popped student in front of the remaining queue rest.
Returns none exactly when the Python code would raise (current[0] on an
empty sorted list, possible only for a full school with capacity 0). -/
def engineStep (students : List Student) (student : String)
    (rest : List String) (s : EngineState) : Option EngineState :=
  let prefs := getPrefs students student
  let idx := getIdx s.prefIndex student
  if h : idx < prefs.length then
    let school := prefs.get ⟨idx, h⟩
    let pi' := setIdx s.prefIndex student (idx + 1)
    match lookup s.schools school with
    | none => some ⟨s.schools, rest ++ [student], pi'⟩
    | some data =>
      let score := getScore students student
      if data.accepted.length < data.capacity then
        some ⟨dictSet s.schools school ⟨data.capacity, data.accepted ++ [(student, score)]⟩,
              rest, pi'⟩
      else
        match sortAsc data.accepted with
        | [] => none
        | low :: _ =>
          if low.2 < score then
            some ⟨dictSet s.schools school
                    ⟨data.capacity, (data.accepted.erase low) ++ [(student, score)]⟩,
                  rest ++ [low.1], pi'⟩
          else
            some ⟨s.schools, rest ++ [student], pi'⟩
  else
    some ⟨s.schools, rest, s.prefIndex⟩

/-- The while-unmatched worklist loop, with explicit fuel; also counts the
number of queue pops performed.  Returns none if the fuel runs out before
the queue empties, or if a step raises. -/
def engineRun (students : List Student) : Nat → EngineState → Option (EngineState × Nat)
  | 0, s => if s.unmatched = [] then some (s, 0) else none
  | fuel + 1, s =>
    match s.unmatched with
    | [] => some (s, 0)
    | student :: rest =>
      match engineStep students student rest s with
      | none => none
      | some s' => (engineRun students fuel s').map (fun p => (p.1, p.2 + 1))

/-- The initial engine state: schools_dict with empty accepted lists, the
queue holding every student once in input order, pref_index all zero. -/
def initState (students : List Student) (schools : List (String × Nat)) :
    EngineState :=
  ⟨schools.map (fun p => (p.1, ⟨p.2, []⟩)),
   students.map (fun st => st.name),
   students.map (fun st => (st.name, 0))⟩

/-- Fuel sufficient for any run: the sum of all preference-list lengths
plus the number of students (shown sufficient below). -/
def fuelFor (students : List Student) : Nat :=
  (students.map (fun st => st.preferences.length)).sum + students.length

/-- The final formatting step of gale_shapley_matching: per school, the
accepted student names sorted descending by score. -/
def formatAlloc (schools : List (String × SchoolData)) :
    List (String × List String) :=
  schools.map (fun p => (p.1, (sortDescByScore p.2.accepted).map (fun q => q.1)))

/-- CollegeAdmissionsApp.gale_shapley_matching: run the worklist loop to
completion and format the allocation.  The input school dictionary is the
list of (name, capacity) pairs in insertion order. -/
def gale_shapley_matching (students : List Student)
    (schools : List (String × Nat)) : Option (List (String × List String)) :=
  (engineRun students (fuelFor students) (initState students schools)).map
    (fun p => formatAlloc p.1.schools)

/-- The action recorded in a history entry by _animation_run_step.  The
code appends an entry only on the three branches where the school exists;
the action field is always overwritten before the step returns. -/
inductive StepAction where
  | accepted
  | replaced
  | rejected
deriving DecidableEq

/-- One entry of state["history"]: keys student, school, action, rejected
(the name of the evicted student, set only for replaced). -/
structure StepRecord where
  student : String
  school : String
  action : StepAction
  rejected : Option String
deriving DecidableEq

/-- The animation session state created by _animation_reset: the algorithm
state (schools_dict, unmatched, pref_index) plus the step counter, the
append-only history, and the current student and school highlights. -/
structure AnimState where
  stepNum : Nat
  schools : List (String × SchoolData)
  unmatched : List String
  prefIndex : List (String × Nat)
  history : List StepRecord
  currentStudent : Option String
  currentSchool : Option String
deriving DecidableEq

/-- CollegeAdmissionsApp._animation_run_step with the queue already popped:
processes the popped student in front of the remaining queue rest.  Canvas
drawing and status text are not modelled; none models a raised IndexError
exactly as in the batch engine. -/
def animation_run_step (students : List Student) (student : String)
    (rest : List String) (a : AnimState) : Option AnimState :=
  let a0 : AnimState := { a with unmatched := rest, currentStudent := some student }
  let prefs := getPrefs students student
  let idx := getIdx a0.prefIndex student
  if h : idx < prefs.length then
    let school := prefs.get ⟨idx, h⟩
    let a1 : AnimState := { a0 with
      prefIndex := setIdx a0.prefIndex student (idx + 1),
      currentSchool := some school,
      stepNum := a0.stepNum + 1 }
    match lookup a1.schools school with
    | none => some { a1 with unmatched := a1.unmatched ++ [student] }
    | some data =>
      let score := getScore students student
      if data.accepted.length < data.capacity then
        some { a1 with
          schools := dictSet a1.schools school
            ⟨data.capacity, data.accepted ++ [(student, score)]⟩,
          history := a1.history ++ [⟨student, school, StepAction.accepted, none⟩] }
      else
        match sortAsc data.accepted with
        | [] => none
        | low :: _ =>
          if low.2 < score then
            some { a1 with
              schools := dictSet a1.schools school
                ⟨data.capacity, (data.accepted.erase low) ++ [(student, score)]⟩,
              unmatched := a1.unmatched ++ [low.1],
              history := a1.history ++ [⟨student, school, StepAction.replaced, some low.1⟩] }
          else
            some { a1 with
              unmatched := a1.unmatched ++ [student],
              history := a1.history ++ [⟨student, school, StepAction.rejected, none⟩] }
  else
    some a0

/-- Driving the session: repeatedly invoke _animation_run_step until the
unmatched queue is empty (the no-unmatched branch of the code stops the
run).  Fuel-indexed as for the batch engine. -/
def animationRun (students : List Student) : Nat → AnimState → Option AnimState
  | 0, a => if a.unmatched = [] then some a else none
  | fuel + 1, a =>
    match a.unmatched with
    | [] => some a
    | student :: rest =>
      match animation_run_step students student rest a with
      | none => none
      | some a' => animationRun students fuel a'

/-- The session state built by _animation_reset. -/
def animInit (students : List Student) (schools : List (String × Nat)) :
    AnimState :=
  ⟨0,
   schools.map (fun p => (p.1, ⟨p.2, []⟩)),
   students.map (fun st => st.name),
   students.map (fun st => (st.name, 0)),
   [], none, none⟩

/-- Projection of the session state onto the algorithm state shared with
the batch engine. -/
def animProj (a : AnimState) : EngineState :=
  ⟨a.schools, a.unmatched, a.prefIndex⟩

/-- Python int() applied to a rational value: truncation toward zero. -/
def pyInt (q : ℚ) : Int :=
  if 0 ≤ q then ⌊q⌋ else -⌊-q⌋

/-- The derived student list built by _run_adjusted_matching: same names
and preference lists, score replaced by int(score * factor). -/
def adjustStudents (students : List Student) (factor : ℚ) : List Student :=
  students.map (fun st => ⟨st.name, st.preferences, pyInt ((st.score : ℚ) * factor)⟩)

/-- CollegeAdmissionsApp._run_adjusted_matching: run the matching on the
derived adjusted student list (the temporary swap of self.students is
observationally the same as running on the adjusted copy). -/
def run_adjusted_matching (students : List Student)
    (schools : List (String × Nat)) (factor : ℚ) :
    Option (List (String × List String)) :=
  gale_shapley_matching (adjustStudents students factor) schools

/-- Python len(set(a).symmetric_difference(set(b))) for lists of names:
the lists are first collapsed to sets (dedup) and the symmetric difference
counted. -/
def symmDiffCard (a b : List String) : Nat :=
  ((a.dedup).filter (fun n => n ∉ b)).length +
    ((b.dedup).filter (fun n => n ∉ a)).length

/-- CollegeAdmissionsApp._count_matching_changes: sum over the union of
the school keys of the size of the symmetric difference of the assigned
name sets. -/
def count_matching_changes (original adjusted : List (String × List String)) :
    Nat :=
  let keys := (original.map (fun p => p.1) ++ adjusted.map (fun p => p.1)).dedup
  (keys.map (fun k =>
    symmDiffCard ((lookup original k).getD []) ((lookup adjusted k).getD []))).sum

/-- Well-typed input as the claims assume it: unique student names, unique
school names, positive capacities. -/
def WellTyped (students : List Student) (schools : List (String × Nat)) : Prop :=
  (students.map (fun st => st.name)).Nodup ∧
    (schools.map (fun p => p.1)).Nodup ∧ ∀ p ∈ schools, 0 < p.2

instance (students : List Student) (schools : List (String × Nat)) :
    Decidable (WellTyped students schools) := by
  unfold WellTyped; infer_instance

/-- Number of occurrences of the name n across the whole run state: in the
unmatched queue plus in every accepted list.  The code maintains that this
is at most one per name (a student is queued or admitted to one school,
never both). -/
def occCount (s : EngineState) (n : String) : Nat :=
  s.unmatched.countP (fun m => m = n) +
    (s.schools.map (fun p => p.2.accepted.countP (fun q => q.1 = n))).sum

/-- Invariant of every reachable engine state on well-typed input. -/
structure WF (students : List Student) (s : EngineState) : Prop where
  nodupStudents : (students.map (fun st => st.name)).Nodup
  nodupSchools : (s.schools.map (fun p => p.1)).Nodup
  prefKeys : s.prefIndex.map (fun p => p.1) = students.map (fun st => st.name)
  queueNames : ∀ n ∈ s.unmatched, n ∈ students.map (fun st => st.name)
  acceptedNames : ∀ p ∈ s.schools, ∀ q ∈ p.2.accepted,
    q.1 ∈ students.map (fun st => st.name)
  cursorLe : ∀ st ∈ students, getIdx s.prefIndex st.name ≤ st.preferences.length
  capPos : ∀ p ∈ s.schools, 0 < p.2.capacity
  capInv : ∀ p ∈ s.schools, p.2.accepted.length ≤ p.2.capacity
  scoresOk : ∀ p ∈ s.schools, ∀ q ∈ p.2.accepted, q.2 = getScore students q.1
  occLe : ∀ n, occCount s n ≤ 1

/-- Reachability between engine states by pops of the worklist loop. -/
inductive Reaches (students : List Student) : EngineState → EngineState → Prop
  | refl (s : EngineState) : Reaches students s s
  | tail {s t u : EngineState} (student : String) (rest : List String) :
      Reaches students s t → t.unmatched = student :: rest →
      engineStep students student rest t = some u → Reaches students s u

/-- Preference attempts still available, summed over all students. -/
def remPrefs (students : List Student) (d : List (String × Nat)) : Nat :=
  (students.map (fun st => st.preferences.length - getIdx d st.name)).sum

/-- Termination measure: remaining preference attempts plus queue length;
it strictly decreases with every pop. -/
def stateMeasure (students : List Student) (s : EngineState) : Nat :=
  remPrefs students s.prefIndex + s.unmatched.length

/-- The school sc is at (or above) capacity and x is a lower bound of the
scores of its accepted pairs. -/
def FullLB (sc : String) (x : Int) (s : EngineState) : Prop :=
  ∃ d, lookup s.schools sc = some d ∧ d.capacity ≤ d.accepted.length ∧
    ∀ p ∈ d.accepted, x ≤ p.2

/-- The name n is neither queued nor admitted anywhere. -/
def Absent (n : String) (s : EngineState) : Prop :=
  n ∉ s.unmatched ∧ ∀ p ∈ s.schools, ∀ q ∈ p.2.accepted, q.1 ≠ n

/-- No student lists the school sc among its preferences. -/
def NeverApplied (students : List Student) (sc : String) : Prop :=
  ∀ st ∈ students, sc ∉ st.preferences

/-- The branch conditions under which the popped applicant applies to the
existing full school sc and the name x is turned away by it: x is the
applicant itself when its score does not beat the minimum of the accepted
pairs, and the evicted minimum-score member otherwise. -/
def AppliedAndRejected (students : List Student) (t : EngineState)
    (student : String) (rest : List String) (sc : String) (x : String) : Prop :=
  t.unmatched = student :: rest ∧
  (getPrefs students student)[getIdx t.prefIndex student]? = some sc ∧
  ∃ d low tl, lookup t.schools sc = some d ∧ d.capacity ≤ d.accepted.length ∧
    sortAsc d.accepted = low :: tl ∧
    ((¬ low.2 < getScore students student ∧ x = student) ∨
     (low.2 < getScore students student ∧ x = low.1))

/-- Scenario 2 of the design notes: A (score 70) then B (score 90), both
listing only X of capacity 1. -/
def scenario2Students : List Student := [⟨"A", ["X"], 70⟩, ⟨"B", ["X"], 90⟩]

def scenario2Schools : List (String × Nat) := [("X", 1)]

/-- The engine state of scenario 2 after the first pop admits A. -/
def scenario2Mid : EngineState :=
  ⟨[("X", ⟨1, [("A", 70)]⟩)], ["B"], [("A", 1), ("B", 0)]⟩

/-- The engine state of scenario 2 after the second pop evicts A for B. -/
def scenario2AfterEvict : EngineState :=
  ⟨[("X", ⟨1, [("B", 90)]⟩)], ["A"], [("A", 1), ("B", 1)]⟩

/-- The final engine state of scenario 2 after A is discarded. -/
def scenario2Final : EngineState :=
  ⟨[("X", ⟨1, [("B", 90)]⟩)], [], [("A", 1), ("B", 1)]⟩

/-- Scenario 3: C lists the unknown school Ghost first, then Y. -/
def ghostStudents : List Student := [⟨"C", ["Ghost", "Y"], 50⟩]

def ghostSchools : List (String × Nat) := [("Y", 1)]

/-- The session state of scenario 3 after the first step (unknown school):
the history is still empty. -/
def ghostMid : AnimState :=
  ⟨1, [("Y", ⟨1, []⟩)], ["C"], [("C", 1)], [], some "C", some "Ghost"⟩

/-- The session state of scenario 3 after the second step admits C to Y
and emits the single accepted record. -/
def ghostDone : AnimState :=
  ⟨2, [("Y", ⟨1, [("C", 50)]⟩)], [], [("C", 2)],
   [⟨"C", "Y", StepAction.accepted, none⟩], some "C", some "Y"⟩

/-- The session state of scenario 2 after the first step admits A to X. -/
def scenario2AnimMid : AnimState :=
  ⟨1, [("X", ⟨1, [("A", 70)]⟩)], ["B"], [("A", 1), ("B", 0)],
   [⟨"A", "X", StepAction.accepted, none⟩], some "A", some "X"⟩

/-- The session state of scenario 2 after the second step, where B evicts
A from the full school X: the replaced record carries the evicted id A. -/
def scenario2AnimEvicted : AnimState :=
  ⟨2, [("X", ⟨1, [("B", 90)]⟩)], ["A"], [("A", 1), ("B", 1)],
   [⟨"A", "X", StepAction.accepted, none⟩,
    ⟨"B", "X", StepAction.replaced, some "A"⟩], some "B", some "X"⟩

/-! ### Association-list dictionary lemmas -/

theorem lookup_cons {α : Type} (p : String × α) (d : List (String × α)) (k : String) :
    lookup (p :: d) k = if p.1 = k then some p.2 else lookup d k := by
  unfold lookup
  by_cases h : p.1 = k <;> simp [List.find?_cons, h]

theorem dictSet_cons {α : Type} (p : String × α) (d : List (String × α))
    (k : String) (v : α) :
    dictSet (p :: d) k v = (if p.1 = k then (k, v) else p) :: dictSet d k v := rfl

theorem lookup_mem {α : Type} {d : List (String × α)} {k : String} {v : α}
    (h : lookup d k = some v) : (k, v) ∈ d := by
  induction d with
  | nil => simp [lookup] at h
  | cons p d ih =>
    rw [lookup_cons] at h
    by_cases hk : p.1 = k
    · simp [hk] at h
      have : p = (k, v) := by
        obtain ⟨p1, p2⟩ := p
        simp at hk h
        simp [hk, h]
      exact this ▸ List.mem_cons_self p d
    · simp [hk] at h
      exact List.mem_cons_of_mem _ (ih h)

theorem lookup_isSome_of_mem_keys {α : Type} {d : List (String × α)} {k : String}
    (h : k ∈ d.map (fun p => p.1)) : (lookup d k).isSome := by
  induction d with
  | nil => simp at h
  | cons p d ih =>
    rw [lookup_cons]
    by_cases hk : p.1 = k
    · simp [hk]
    · rcases List.mem_map.mp h with ⟨q, hq, hqk⟩
      rcases List.mem_cons.mp hq with hq | hq
      · exact absurd (hq ▸ hqk) hk
      · simp only [hk, if_neg, reduceCtorEq]
        exact ih (List.mem_map.mpr ⟨q, hq, hqk⟩)

theorem keys_dictSet {α : Type} (d : List (String × α)) (k : String) (v : α) :
    (dictSet d k v).map (fun p => p.1) = d.map (fun p => p.1) := by
  unfold dictSet
  rw [List.map_map]
  apply List.map_congr_left
  intro p _
  by_cases h : p.1 = k <;> simp [h]

theorem mem_dictSet {α : Type} {d : List (String × α)} {k : String} {v : α}
    {q : String × α} (h : q ∈ dictSet d k v) : q = (k, v) ∨ q ∈ d := by
  unfold dictSet at h
  rw [List.mem_map] at h
  obtain ⟨p, hp, hq⟩ := h
  by_cases hk : p.1 = k
  · simp [hk] at hq
    exact Or.inl hq.symm
  · simp [hk] at hq
    exact Or.inr (hq ▸ hp)

theorem lookup_dictSet_ne {α : Type} (d : List (String × α)) (k k' : String)
    (v : α) (h : k' ≠ k) : lookup (dictSet d k v) k' = lookup d k' := by
  induction d with
  | nil => rfl
  | cons p d ih =>
    rw [dictSet_cons]
    by_cases hk : p.1 = k
    · rw [if_pos hk, lookup_cons, lookup_cons]
      have h1 : ¬ ((k, v).1 = k') := fun hh => h (by simpa using hh.symm)
      have h2 : ¬ (p.1 = k') := fun hh => h (hh ▸ hk)
      rw [if_neg h1, if_neg h2]
      exact ih
    · rw [if_neg hk, lookup_cons, lookup_cons]
      by_cases hk' : p.1 = k' <;> simp [hk', ih]

theorem lookup_dictSet_self {α : Type} {d : List (String × α)} {k : String}
    (v : α) (h : k ∈ d.map (fun p => p.1)) :
    lookup (dictSet d k v) k = some v := by
  induction d with
  | nil => simp at h
  | cons p d ih =>
    rw [dictSet_cons]
    by_cases hk : p.1 = k
    · rw [if_pos hk, lookup_cons]
      simp
    · rw [if_neg hk, lookup_cons, if_neg hk]
      rcases List.mem_map.mp h with ⟨q, hq, hqk⟩
      rcases List.mem_cons.mp hq with hq | hq
      · exact absurd (hq ▸ hqk) hk
      · exact ih (List.mem_map.mpr ⟨q, hq, hqk⟩)

/-- Decomposition of a nodup-key dictionary at a present key; the update
dictSet rewrites exactly that entry. -/
theorem dict_decomp {α : Type} {d : List (String × α)} {k : String} {v : α}
    (hnd : (d.map (fun p => p.1)).Nodup) (h : lookup d k = some v) :
    ∃ pre post, d = pre ++ (k, v) :: post ∧ (∀ p ∈ pre, p.1 ≠ k) ∧
      (∀ p ∈ post, p.1 ≠ k) ∧
      ∀ w, dictSet d k w = pre ++ (k, w) :: post := by
  induction d with
  | nil => simp [lookup] at h
  | cons p d ih =>
    rw [lookup_cons] at h
    simp only [List.map_cons, List.nodup_cons] at hnd
    by_cases hk : p.1 = k
    · simp only [hk, if_pos] at h
      have hnotin : ∀ q ∈ d, q.1 ≠ k := by
        intro q hq hqk
        have hmem : k ∈ d.map (fun r => r.1) := by
          rw [← hqk]
          exact List.mem_map_of_mem (fun r => r.1) hq
        rw [hk] at hnd
        exact hnd.1 hmem
      refine ⟨[], d, ?_, by simp, hnotin, ?_⟩
      · obtain ⟨p1, p2⟩ := p
        simp at hk h
        simp [hk, h]
      · intro w
        rw [dictSet_cons, if_pos hk]
        have hfix : dictSet d k w = d := by
          unfold dictSet
          have hcongr : ∀ q ∈ d, (if q.1 = k then (k, w) else q) = id q := by
            intro q hq
            simp [hnotin q hq]
          rw [List.map_congr_left hcongr, List.map_id]
        rw [hfix]
        rfl
    · simp only [hk, if_neg, reduceCtorEq] at h
      obtain ⟨pre, post, hd, hpre, hpost, hset⟩ := ih hnd.2 h
      refine ⟨p :: pre, post, by simp [hd], ?_, hpost, ?_⟩
      · intro q hq
        rcases List.mem_cons.mp hq with hq | hq
        · exact hq ▸ hk
        · exact hpre q hq
      · intro w
        rw [dictSet_cons, if_neg hk, hset w]
        rfl

/-! ### pref_index lemmas (same structure, Nat values) -/

theorem keys_setIdx (d : List (String × Nat)) (n : String) (v : Nat) :
    (setIdx d n v).map (fun p => p.1) = d.map (fun p => p.1) :=
  keys_dictSet d n v

theorem getIdx_setIdx_ne (d : List (String × Nat)) (n m : String) (v : Nat)
    (h : m ≠ n) : getIdx (setIdx d n v) m = getIdx d m := by
  unfold getIdx
  have : lookup (dictSet d n v) m = lookup d m := lookup_dictSet_ne d n m v h
  unfold lookup at this
  have h1 :
      ((setIdx d n v).find? (fun p => p.1 = m)).map (fun p => p.2) =
      (d.find? (fun p => p.1 = m)).map (fun p => p.2) := this
  rw [h1]

theorem getIdx_setIdx_self {d : List (String × Nat)} {n : String} (v : Nat)
    (h : n ∈ d.map (fun p => p.1)) : getIdx (setIdx d n v) n = v := by
  unfold getIdx
  have : lookup (dictSet d n v) n = some v := lookup_dictSet_self v h
  unfold lookup at this
  have h1 :
      ((setIdx d n v).find? (fun p => p.1 = n)).map (fun p => p.2) = some v := this
  rw [h1]
  rfl

/-! ### Student dictionary lemmas -/

theorem find_name_eq {students : List Student}
    (hnd : (students.map (fun st => st.name)).Nodup) {st : Student}
    (hmem : st ∈ students) :
    students.find? (fun u => u.name = st.name) = some st := by
  induction students with
  | nil => simp at hmem
  | cons u l ih =>
    simp only [List.map_cons, List.nodup_cons] at hnd
    by_cases hu : u.name = st.name
    · have : st = u := by
        rcases List.mem_cons.mp hmem with h | h
        · exact h
        · exact absurd (hu ▸ List.mem_map_of_mem (fun r => r.name) h) hnd.1
      simp [List.find?_cons, hu]
      exact this.symm
    · have : st ∈ l := by
        rcases List.mem_cons.mp hmem with h | h
        · exact absurd (h ▸ rfl) hu
        · exact h
      simp only [List.find?_cons, hu, decide_eq_true_eq, if_neg]
      simpa [hu] using ih hnd.2 this

theorem getPrefs_eq {students : List Student}
    (hnd : (students.map (fun st => st.name)).Nodup) {st : Student}
    (hmem : st ∈ students) : getPrefs students st.name = st.preferences := by
  unfold getPrefs
  rw [find_name_eq hnd hmem]
  rfl

theorem getScore_eq {students : List Student}
    (hnd : (students.map (fun st => st.name)).Nodup) {st : Student}
    (hmem : st ∈ students) : getScore students st.name = st.score := by
  unfold getScore
  rw [find_name_eq hnd hmem]
  rfl

/-! ### Sorting lemmas -/

theorem insertAsc_perm (p : String × Int) (l : List (String × Int)) :
    List.Perm (insertAsc p l) (p :: l) := by
  induction l with
  | nil => exact List.Perm.refl _
  | cons q l ih =>
    unfold insertAsc
    by_cases h : q.2 ≤ p.2
    · rw [if_pos h]
      exact (List.Perm.cons q ih).trans (List.Perm.swap p q l)
    · rw [if_neg h]

theorem foldl_insertAsc_perm :
    ∀ (l acc : List (String × Int)),
      List.Perm (l.foldl (fun acc p => insertAsc p acc) acc) (l ++ acc) := by
  intro l
  induction l with
  | nil => intro acc; exact List.Perm.refl _
  | cons x l ih =>
    intro acc
    rw [List.foldl_cons]
    refine (ih (insertAsc x acc)).trans ?_
    refine (List.Perm.append_left l (insertAsc_perm x acc)).trans ?_
    exact List.perm_middle

theorem sortAsc_perm (l : List (String × Int)) : List.Perm (sortAsc l) l := by
  have := foldl_insertAsc_perm l []
  simpa [sortAsc] using this

theorem mem_sortAsc {p : String × Int} {l : List (String × Int)} :
    p ∈ sortAsc l ↔ p ∈ l :=
  (sortAsc_perm l).mem_iff

theorem sortAsc_ne_nil {l : List (String × Int)} (h : l ≠ []) :
    sortAsc l ≠ [] := by
  intro hcon
  have hlen := (sortAsc_perm l).length_eq
  rw [hcon] at hlen
  exact h (List.eq_nil_of_length_eq_zero hlen.symm)

theorem insertAsc_pairwise {p : String × Int} {l : List (String × Int)}
    (h : l.Pairwise (fun a b => a.2 ≤ b.2)) :
    (insertAsc p l).Pairwise (fun a b => a.2 ≤ b.2) := by
  induction l with
  | nil => simp [insertAsc]
  | cons q l ih =>
    rcases List.pairwise_cons.mp h with ⟨hq, hl⟩
    unfold insertAsc
    by_cases hqp : q.2 ≤ p.2
    · rw [if_pos hqp]
      refine List.pairwise_cons.mpr ⟨?_, ih hl⟩
      intro b hb
      rcases List.mem_cons.mp ((insertAsc_perm p l).mem_iff.mp hb) with hb | hb
      · exact hb ▸ hqp
      · exact hq b hb
    · rw [if_neg hqp]
      refine List.pairwise_cons.mpr ⟨?_, h⟩
      intro b hb
      have hpq : p.2 ≤ q.2 := le_of_not_le hqp
      rcases List.mem_cons.mp hb with hb | hb
      · exact hb ▸ hpq
      · exact le_trans hpq (hq b hb)

theorem sortAsc_pairwise (l : List (String × Int)) :
    (sortAsc l).Pairwise (fun a b => a.2 ≤ b.2) := by
  have haux : ∀ (l acc : List (String × Int)),
      acc.Pairwise (fun a b => a.2 ≤ b.2) →
      (l.foldl (fun acc p => insertAsc p acc) acc).Pairwise
        (fun a b => a.2 ≤ b.2) := by
    intro l
    induction l with
    | nil => intro acc hacc; exact hacc
    | cons x l ih =>
      intro acc hacc
      rw [List.foldl_cons]
      exact ih _ (insertAsc_pairwise hacc)
  exact haux l [] (List.Pairwise.nil)

/-- The head of the ascending sort is a minimum-score member. -/
theorem sortAsc_head_le {l : List (String × Int)} {low : String × Int}
    {tail : List (String × Int)} (h : sortAsc l = low :: tail) :
    ∀ p ∈ l, low.2 ≤ p.2 := by
  intro p hp
  have hsorted := sortAsc_pairwise l
  rw [h] at hsorted
  have hmem : p ∈ low :: tail := h ▸ mem_sortAsc.mpr hp
  rcases List.mem_cons.mp hmem with hc | hc
  · exact hc ▸ le_refl _
  · exact (List.pairwise_cons.mp hsorted).1 p hc

/-! ### Case analysis of one engine step -/

/-- The five outcomes of one pop of the worklist loop, with the successor
state made explicit: discard (preferences exhausted), unknown school,
acceptance into a school with space, replacement of the minimum-score
member, and rejection. -/
theorem engineStep_cases {students : List Student} {student : String}
    {rest : List String} {s s' : EngineState}
    (h : engineStep students student rest s = some s') :
    (¬ getIdx s.prefIndex student < (getPrefs students student).length ∧
       s' = ⟨s.schools, rest, s.prefIndex⟩) ∨
    (∃ hlt : getIdx s.prefIndex student < (getPrefs students student).length,
      (lookup s.schools
          ((getPrefs students student).get ⟨getIdx s.prefIndex student, hlt⟩) = none ∧
        s' = ⟨s.schools, rest ++ [student],
              setIdx s.prefIndex student (getIdx s.prefIndex student + 1)⟩) ∨
      (∃ data, lookup s.schools
          ((getPrefs students student).get ⟨getIdx s.prefIndex student, hlt⟩) = some data ∧
        ((data.accepted.length < data.capacity ∧
           s' = ⟨dictSet s.schools
                   ((getPrefs students student).get ⟨getIdx s.prefIndex student, hlt⟩)
                   ⟨data.capacity, data.accepted ++ [(student, getScore students student)]⟩,
                 rest,
                 setIdx s.prefIndex student (getIdx s.prefIndex student + 1)⟩) ∨
         (¬ data.accepted.length < data.capacity ∧
           ∃ low tl, sortAsc data.accepted = low :: tl ∧
             ((low.2 < getScore students student ∧
                s' = ⟨dictSet s.schools
                        ((getPrefs students student).get ⟨getIdx s.prefIndex student, hlt⟩)
                        ⟨data.capacity,
                         (data.accepted.erase low) ++ [(student, getScore students student)]⟩,
                      rest ++ [low.1],
                      setIdx s.prefIndex student (getIdx s.prefIndex student + 1)⟩) ∨
              (¬ low.2 < getScore students student ∧
                s' = ⟨s.schools, rest ++ [student],
                      setIdx s.prefIndex student (getIdx s.prefIndex student + 1)⟩)))))) := by
  by_cases hlt : getIdx s.prefIndex student < (getPrefs students student).length
  · right
    refine ⟨hlt, ?_⟩
    rw [engineStep] at h
    simp only [dif_pos hlt] at h
    cases hlk : lookup s.schools
        ((getPrefs students student).get ⟨getIdx s.prefIndex student, hlt⟩) with
    | none =>
      simp only [hlk] at h
      exact Or.inl ⟨rfl, (Option.some.injEq _ _ ▸ h).symm⟩
    | some data =>
      simp only [hlk] at h
      right
      refine ⟨data, rfl, ?_⟩
      by_cases hcap : data.accepted.length < data.capacity
      · simp only [if_pos hcap] at h
        exact Or.inl ⟨hcap, (Option.some.injEq _ _ ▸ h).symm⟩
      · simp only [if_neg hcap] at h
        right
        refine ⟨hcap, ?_⟩
        cases hsort : sortAsc data.accepted with
        | nil =>
          simp only [hsort] at h
          exact absurd h (by simp)
        | cons low tl =>
          simp only [hsort] at h
          refine ⟨low, tl, rfl, ?_⟩
          by_cases hsc : low.2 < getScore students student
          · simp only [if_pos hsc] at h
            exact Or.inl ⟨hsc, (Option.some.injEq _ _ ▸ h).symm⟩
          · simp only [if_neg hsc] at h
            exact Or.inr ⟨hsc, (Option.some.injEq _ _ ▸ h).symm⟩
  · left
    rw [engineStep] at h
    simp only [dif_neg hlt] at h
    exact ⟨hlt, (Option.some.injEq _ _ ▸ h).symm⟩

/-! ### Run invariants -/

theorem forall_mem_dictSet {α : Type} {P : String × α → Prop}
    {d : List (String × α)} {k : String} {v : α}
    (hall : ∀ p ∈ d, P p) (hkv : P (k, v)) : ∀ p ∈ dictSet d k v, P p := by
  intro p hp
  rcases mem_dictSet hp with h | h
  · exact h ▸ hkv
  · exact hall p h

/-- Rewriting the per-school sums under a dictSet update at a present key
of a nodup-key dictionary. -/
theorem sum_map_dictSet {α : Type} (f : String × α → Nat)
    {d : List (String × α)} {k : String} {v : α}
    (hnd : (d.map (fun p => p.1)).Nodup) (h : lookup d k = some v) (w : α) :
    ((dictSet d k w).map f).sum + f (k, v) = (d.map f).sum + f (k, w) := by
  obtain ⟨pre, post, hd, _, _, hset⟩ := dict_decomp hnd h
  rw [hset w, hd]
  simp only [List.map_append, List.sum_append, List.map_cons, List.sum_cons]
  omega

theorem countP_snoc {α : Type} (l : List α) (a : α) (p : α → Bool) :
    (l ++ [a]).countP p = l.countP p + if p a then 1 else 0 := by
  rw [List.countP_append]
  by_cases h : p a <;> simp [List.countP_cons, h]

theorem perm_cons_erase_beq {α : Type} [BEq α] [LawfulBEq α] {a : α}
    {l : List α} (h : a ∈ l) : List.Perm l (a :: l.erase a) := by
  obtain ⟨l1, l2, _, he1, he2⟩ := List.exists_erase_eq h
  rw [he2, he1]
  exact List.perm_middle

theorem countP_erase_of_mem {l : List (String × Int)} {a : String × Int}
    (h : a ∈ l) (p : String × Int → Bool) :
    l.countP p = (l.erase a).countP p + if p a then 1 else 0 := by
  have hperm := perm_cons_erase_beq h
  rw [hperm.countP_eq]
  by_cases hp : p a <;> simp [List.countP_cons, hp]

theorem countP_cons_name (m : String) (l : List String) (n : String) :
    (m :: l).countP (fun x => x = n) =
      l.countP (fun x => x = n) + (if m = n then 1 else 0) := by
  by_cases h : m = n <;> simp [List.countP_cons, h]

theorem countP_snoc_name (l : List String) (m n : String) :
    (l ++ [m]).countP (fun x => x = n) =
      l.countP (fun x => x = n) + (if m = n then 1 else 0) := by
  by_cases h : m = n <;> simp [countP_snoc, h]

theorem countP_pair_snoc (l : List (String × Int)) (m : String) (sc : Int)
    (n : String) :
    (l ++ [(m, sc)]).countP (fun q => q.1 = n) =
      l.countP (fun q => q.1 = n) + (if m = n then 1 else 0) := by
  rw [countP_snoc]
  by_cases h : m = n <;> simp [h]

theorem countP_pair_erase {l : List (String × Int)} {a : String × Int}
    (h : a ∈ l) (n : String) :
    l.countP (fun q => q.1 = n) =
      (l.erase a).countP (fun q => q.1 = n) + (if a.1 = n then 1 else 0) := by
  rw [countP_erase_of_mem h (fun q => q.1 = n)]
  by_cases hh : a.1 = n <;> simp [hh]

/-- Preservation of the run invariant by one pop of the worklist loop. -/
theorem WF_step {students : List Student} {student : String} {rest : List String}
    {s s' : EngineState} (hwf : WF students s) (hq : s.unmatched = student :: rest)
    (h : engineStep students student rest s = some s') : WF students s' := by
  have hstudent_mem : student ∈ students.map (fun st => st.name) :=
    hwf.queueNames student (by rw [hq]; exact List.mem_cons_self _ _)
  have hrest_names : ∀ n ∈ rest, n ∈ students.map (fun st => st.name) := by
    intro n hn
    exact hwf.queueNames n (by rw [hq]; exact List.mem_cons_of_mem _ hn)
  have hkeys : student ∈ s.prefIndex.map (fun p => p.1) := by
    rw [hwf.prefKeys]; exact hstudent_mem
  have hqc : ∀ n : String, s.unmatched.countP (fun m => m = n) =
      rest.countP (fun m => m = n) + (if student = n then 1 else 0) := by
    intro n
    rw [hq, countP_cons_name]
  have hcursor' : ∀ hlt : getIdx s.prefIndex student < (getPrefs students student).length,
      ∀ st ∈ students,
        getIdx (setIdx s.prefIndex student (getIdx s.prefIndex student + 1)) st.name ≤
          st.preferences.length := by
    intro hlt st hst
    by_cases hname : st.name = student
    · rw [hname, getIdx_setIdx_self _ hkeys]
      have heq : getPrefs students student = st.preferences := by
        rw [← hname]
        exact getPrefs_eq hwf.nodupStudents hst
      rw [heq] at hlt
      omega
    · rw [getIdx_setIdx_ne _ _ _ _ hname]
      exact hwf.cursorLe st hst
  have hpk' : (setIdx s.prefIndex student
      (getIdx s.prefIndex student + 1)).map (fun p => p.1) =
      students.map (fun st => st.name) := by
    rw [keys_setIdx, hwf.prefKeys]
  rcases engineStep_cases h with
    ⟨hlt, hs'⟩ |
    ⟨hlt, ⟨hlk, hs'⟩ |
      ⟨data, hlk, ⟨hcap, hs'⟩ | ⟨hcap, low, tl, hsort, ⟨hsc, hs'⟩ | ⟨hsc, hs'⟩⟩⟩⟩
  case inl =>
    -- discard: preferences exhausted, student dropped from the queue
    subst hs'
    refine ⟨hwf.nodupStudents, hwf.nodupSchools, hwf.prefKeys, hrest_names,
      hwf.acceptedNames, hwf.cursorLe, hwf.capPos, hwf.capInv, hwf.scoresOk, ?_⟩
    intro n
    have := hwf.occLe n
    unfold occCount at this ⊢
    have h1 := hqc n
    simp only at this h1 ⊢
    omega
  case inr.intro.inl.intro =>
    -- unknown school: requeue at the tail, cursor advanced
    subst hs'
    refine ⟨hwf.nodupStudents, hwf.nodupSchools, hpk', ?_, hwf.acceptedNames,
      hcursor' hlt, hwf.capPos, hwf.capInv, hwf.scoresOk, ?_⟩
    · intro n hn
      rcases List.mem_append.mp hn with hn | hn
      · exact hrest_names n hn
      · rw [List.mem_singleton.mp hn]
        exact hstudent_mem
    · intro n
      have := hwf.occLe n
      unfold occCount at this ⊢
      have h1 := hqc n
      have h2 := countP_snoc_name rest student n
      simp only at this h1 h2 ⊢
      omega
  case inr.intro.inr.intro.intro.inl.intro =>
    -- school with space: student accepted
    subst hs'
    have hmem_school := lookup_mem hlk
    refine ⟨hwf.nodupStudents, ?_, hpk', hrest_names, ?_, hcursor' hlt, ?_, ?_, ?_, ?_⟩
    · rw [keys_dictSet]; exact hwf.nodupSchools
    · refine forall_mem_dictSet hwf.acceptedNames ?_
      intro q hqmem
      rcases List.mem_append.mp hqmem with hqmem | hqmem
      · exact hwf.acceptedNames _ hmem_school q hqmem
      · rw [List.mem_singleton.mp hqmem]
        exact hstudent_mem
    · refine forall_mem_dictSet hwf.capPos ?_
      have hcp := hwf.capPos _ hmem_school
      exact hcp
    · refine forall_mem_dictSet hwf.capInv ?_
      have hci := hwf.capInv _ hmem_school
      simp only [List.length_append, List.length_singleton] at hci ⊢
      omega
    · refine forall_mem_dictSet hwf.scoresOk ?_
      intro q hqmem
      rcases List.mem_append.mp hqmem with hqmem | hqmem
      · exact hwf.scoresOk _ hmem_school q hqmem
      · rw [List.mem_singleton.mp hqmem]
    · intro n
      have hocc := hwf.occLe n
      unfold occCount at hocc ⊢
      have h1 := hqc n
      have h2 := sum_map_dictSet
        (fun p => p.2.accepted.countP (fun q => q.1 = n))
        hwf.nodupSchools hlk
        ⟨data.capacity, data.accepted ++ [(student, getScore students student)]⟩
      have h3 := countP_pair_snoc data.accepted student (getScore students student) n
      simp only at hocc h1 h2 h3 ⊢
      by_cases hn : student = n
      · rw [if_pos hn] at h1 h3
        omega
      · rw [if_neg hn] at h1 h3
        omega
  case inr.intro.inr.intro.intro.inr.intro.intro.intro.intro.inl.intro =>
    -- full school, strictly higher score: minimum-score member evicted
    subst hs'
    have hmem_school := lookup_mem hlk
    have hlow_mem : low ∈ data.accepted :=
      mem_sortAsc.mp (hsort ▸ List.mem_cons_self low tl)
    have hlow_name : low.1 ∈ students.map (fun st => st.name) :=
      hwf.acceptedNames _ hmem_school low hlow_mem
    refine ⟨hwf.nodupStudents, ?_, hpk', ?_, ?_, hcursor' hlt, ?_, ?_, ?_, ?_⟩
    · rw [keys_dictSet]; exact hwf.nodupSchools
    · intro n hn
      rcases List.mem_append.mp hn with hn | hn
      · exact hrest_names n hn
      · rw [List.mem_singleton.mp hn]
        exact hlow_name
    · refine forall_mem_dictSet hwf.acceptedNames ?_
      intro q hqmem
      rcases List.mem_append.mp hqmem with hqmem | hqmem
      · exact hwf.acceptedNames _ hmem_school q (List.erase_subset _ _ hqmem)
      · rw [List.mem_singleton.mp hqmem]
        exact hstudent_mem
    · refine forall_mem_dictSet hwf.capPos ?_
      have hcp := hwf.capPos _ hmem_school
      exact hcp
    · refine forall_mem_dictSet hwf.capInv ?_
      have hle := hwf.capInv _ hmem_school
      have herase := List.length_erase_of_mem hlow_mem
      have hpos : 0 < data.accepted.length := List.length_pos.mpr
        (fun hnil => by rw [hnil] at hlow_mem; exact absurd hlow_mem (List.not_mem_nil low))
      simp only [List.length_append, List.length_singleton] at hle herase ⊢
      omega
    · refine forall_mem_dictSet hwf.scoresOk ?_
      intro q hqmem
      rcases List.mem_append.mp hqmem with hqmem | hqmem
      · exact hwf.scoresOk _ hmem_school q (List.erase_subset _ _ hqmem)
      · rw [List.mem_singleton.mp hqmem]
    · intro n
      have hocc := hwf.occLe n
      unfold occCount at hocc ⊢
      have h1 := hqc n
      have h2 := sum_map_dictSet
        (fun p => p.2.accepted.countP (fun q => q.1 = n))
        hwf.nodupSchools hlk
        ⟨data.capacity,
         (data.accepted.erase low) ++ [(student, getScore students student)]⟩
      have h3 := countP_pair_snoc (data.accepted.erase low) student
        (getScore students student) n
      have h4 := countP_pair_erase hlow_mem n
      have h5 := countP_snoc_name rest low.1 n
      simp only at hocc h1 h2 h3 h4 h5 ⊢
      by_cases hn : student = n <;> by_cases hln : low.1 = n
      · rw [if_pos hn] at h1 h3
        rw [if_pos hln] at h4 h5
        omega
      · rw [if_pos hn] at h1 h3
        rw [if_neg hln] at h4 h5
        omega
      · rw [if_neg hn] at h1 h3
        rw [if_pos hln] at h4 h5
        omega
      · rw [if_neg hn] at h1 h3
        rw [if_neg hln] at h4 h5
        omega
  case inr.intro.inr.intro.intro.inr.intro.intro.intro.intro.inr.intro =>
    -- full school, not higher: student requeued at the tail
    subst hs'
    refine ⟨hwf.nodupStudents, hwf.nodupSchools, hpk', ?_, hwf.acceptedNames,
      hcursor' hlt, hwf.capPos, hwf.capInv, hwf.scoresOk, ?_⟩
    · intro n hn
      rcases List.mem_append.mp hn with hn | hn
      · exact hrest_names n hn
      · rw [List.mem_singleton.mp hn]
        exact hstudent_mem
    · intro n
      have := hwf.occLe n
      unfold occCount at this ⊢
      have h1 := hqc n
      have h2 := countP_snoc_name rest student n
      simp only at this h1 h2 ⊢
      omega

/-! ### Reachability, progress and termination -/

theorem WF_reaches {students : List Student} {s t : EngineState}
    (hwf : WF students s) (h : Reaches students s t) : WF students t := by
  induction h with
  | refl => exact hwf
  | tail student rest hr hq hstep ih => exact WF_step ih hq hstep

theorem Reaches_head {students : List Student} {s s' t : EngineState}
    (student : String) (rest : List String) (hq : s.unmatched = student :: rest)
    (hstep : engineStep students student rest s = some s')
    (h : Reaches students s' t) : Reaches students s t := by
  induction h with
  | refl => exact Reaches.tail student rest (Reaches.refl s) hq hstep
  | tail st2 r2 hr hq2 hstep2 ih => exact Reaches.tail st2 r2 ih hq2 hstep2

/-- The engine never raises on states satisfying the invariant: the only
failing branch needs a full school with an empty accepted list, excluded
by positive capacities. -/
theorem engineStep_isSome {students : List Student} {student : String}
    {rest : List String} {s : EngineState} (hwf : WF students s) :
    ∃ s', engineStep students student rest s = some s' := by
  cases hstep : engineStep students student rest s with
  | some s' => exact ⟨s', rfl⟩
  | none =>
    exfalso
    rw [engineStep] at hstep
    by_cases hlt : getIdx s.prefIndex student < (getPrefs students student).length
    · simp only [dif_pos hlt] at hstep
      cases hlk : lookup s.schools
          ((getPrefs students student).get ⟨getIdx s.prefIndex student, hlt⟩) with
      | none =>
        simp only [hlk] at hstep
        exact Option.noConfusion hstep
      | some data =>
        simp only [hlk] at hstep
        by_cases hcap : data.accepted.length < data.capacity
        · simp only [if_pos hcap] at hstep
          exact Option.noConfusion hstep
        · simp only [if_neg hcap] at hstep
          have hpos : 0 < data.capacity := hwf.capPos _ (lookup_mem hlk)
          have hne : data.accepted ≠ [] := by
            intro hnil
            rw [hnil] at hcap
            simp only [List.length_nil] at hcap
            omega
          cases hsort : sortAsc data.accepted with
          | nil => exact sortAsc_ne_nil hne hsort
          | cons low tl =>
            simp only [hsort] at hstep
            by_cases hsc : low.2 < getScore students student
            · simp only [if_pos hsc] at hstep
              exact Option.noConfusion hstep
            · simp only [if_neg hsc] at hstep
              exact Option.noConfusion hstep
    · simp only [dif_neg hlt] at hstep
      exact Option.noConfusion hstep

theorem sum_map_update_one {l : List Student} {f g : Student → Nat}
    (hnd : (l.map (fun st => st.name)).Nodup) {st0 : Student} (hmem : st0 ∈ l)
    (hdec : g st0 + 1 = f st0)
    (hsame : ∀ u ∈ l, u.name ≠ st0.name → g u = f u) :
    (l.map g).sum + 1 = (l.map f).sum := by
  induction l with
  | nil => simp at hmem
  | cons u l ih =>
    simp only [List.map_cons, List.nodup_cons] at hnd
    simp only [List.map_cons, List.sum_cons]
    by_cases hu : u.name = st0.name
    · have huniq : st0 = u := by
        rcases List.mem_cons.mp hmem with h | h
        · exact h
        · exact absurd (hu ▸ List.mem_map_of_mem (fun r => r.name) h) hnd.1
      subst huniq
      have heq : l.map g = l.map f := by
        apply List.map_congr_left
        intro v hv
        refine hsame v (List.mem_cons_of_mem _ hv) ?_
        intro hvn
        exact hnd.1 (hvn ▸ List.mem_map_of_mem (fun r => r.name) hv)
      rw [heq]
      omega
    · have hst0 : st0 ∈ l := by
        rcases List.mem_cons.mp hmem with h | h
        · exact absurd (show u.name = st0.name by rw [h]) hu
        · exact h
      have hgu : g u = f u := hsame u (List.mem_cons_self _ _) hu
      have := ih hnd.2 hst0 (fun v hv hvn => hsame v (List.mem_cons_of_mem _ hv) hvn)
      omega

/-- Advancing the cursor of one queued student decreases the remaining
preference count by exactly one. -/
theorem remPrefs_advance {students : List Student}
    (hnd : (students.map (fun st => st.name)).Nodup)
    {d : List (String × Nat)}
    (hkeys : d.map (fun p => p.1) = students.map (fun st => st.name))
    {student : String} (hmem : student ∈ students.map (fun st => st.name))
    (hlt : getIdx d student < (getPrefs students student).length) :
    remPrefs students (setIdx d student (getIdx d student + 1)) + 1 =
      remPrefs students d := by
  obtain ⟨st0, hst0, hst0n⟩ := List.mem_map.mp hmem
  have hkey : student ∈ d.map (fun p => p.1) := by rw [hkeys]; exact hmem
  have hprefs : getPrefs students student = st0.preferences := by
    rw [← hst0n]
    exact getPrefs_eq hnd hst0
  unfold remPrefs
  apply sum_map_update_one hnd hst0
  · rw [hst0n, getIdx_setIdx_self _ hkey]
    rw [hprefs] at hlt
    omega
  · intro u hu hun
    rw [hst0n] at hun
    rw [getIdx_setIdx_ne _ _ _ _ hun]

/-- Every pop strictly decreases the termination measure. -/
theorem measure_step {students : List Student} {student : String}
    {rest : List String} {s s' : EngineState}
    (hwf : WF students s) (hq : s.unmatched = student :: rest)
    (h : engineStep students student rest s = some s') :
    stateMeasure students s' < stateMeasure students s := by
  have hstudent_mem : student ∈ students.map (fun st => st.name) :=
    hwf.queueNames student (by rw [hq]; exact List.mem_cons_self _ _)
  have hlen : s.unmatched.length = rest.length + 1 := by rw [hq]; rfl
  rcases engineStep_cases h with
    ⟨hlt, hs'⟩ |
    ⟨hlt, ⟨hlk, hs'⟩ |
      ⟨data, hlk, ⟨hcap, hs'⟩ | ⟨hcap, low, tl, hsort, ⟨hsc, hs'⟩ | ⟨hsc, hs'⟩⟩⟩⟩
  · subst hs'
    show remPrefs students s.prefIndex + rest.length <
      remPrefs students s.prefIndex + s.unmatched.length
    omega
  · have hadv := remPrefs_advance hwf.nodupStudents hwf.prefKeys hstudent_mem hlt
    subst hs'
    show remPrefs students (setIdx s.prefIndex student (getIdx s.prefIndex student + 1)) +
      (rest ++ [student]).length < remPrefs students s.prefIndex + s.unmatched.length
    simp only [List.length_append, List.length_singleton]
    omega
  · have hadv := remPrefs_advance hwf.nodupStudents hwf.prefKeys hstudent_mem hlt
    subst hs'
    show remPrefs students (setIdx s.prefIndex student (getIdx s.prefIndex student + 1)) +
      rest.length < remPrefs students s.prefIndex + s.unmatched.length
    omega
  · have hadv := remPrefs_advance hwf.nodupStudents hwf.prefKeys hstudent_mem hlt
    subst hs'
    show remPrefs students (setIdx s.prefIndex student (getIdx s.prefIndex student + 1)) +
      (rest ++ [low.1]).length < remPrefs students s.prefIndex + s.unmatched.length
    simp only [List.length_append, List.length_singleton]
    omega
  · have hadv := remPrefs_advance hwf.nodupStudents hwf.prefKeys hstudent_mem hlt
    subst hs'
    show remPrefs students (setIdx s.prefIndex student (getIdx s.prefIndex student + 1)) +
      (rest ++ [student]).length < remPrefs students s.prefIndex + s.unmatched.length
    simp only [List.length_append, List.length_singleton]
    omega

/-- With fuel at least the measure, the loop empties the queue; the number
of pops is bounded by the measure of the starting state. -/
theorem engineRun_total (students : List Student) :
    ∀ (fuel : Nat) (s : EngineState), WF students s →
      stateMeasure students s ≤ fuel →
      ∃ t k, engineRun students fuel s = some (t, k) ∧ t.unmatched = [] ∧
        k ≤ stateMeasure students s ∧ WF students t ∧ Reaches students s t := by
  intro fuel
  induction fuel with
  | zero =>
    intro s hwf hm
    have hq : s.unmatched = [] := by
      unfold stateMeasure at hm
      exact List.length_eq_zero.mp (by omega)
    refine ⟨s, 0, ?_, hq, by omega, hwf, Reaches.refl s⟩
    simp [engineRun, hq]
  | succ fuel ih =>
    intro s hwf hm
    cases hq : s.unmatched with
    | nil =>
      refine ⟨s, 0, ?_, hq, by omega, hwf, Reaches.refl s⟩
      simp [engineRun, hq]
    | cons student rest =>
      obtain ⟨s', hstep⟩ := @engineStep_isSome students student rest s hwf
      have hwf' := WF_step hwf hq hstep
      have hdec := measure_step hwf hq hstep
      obtain ⟨t, k, hrun, hemp, hk, hwft, hreach⟩ := ih s' hwf' (by omega)
      refine ⟨t, k + 1, ?_, hemp, by omega, hwft, Reaches_head student rest hq hstep hreach⟩
      rw [engineRun]
      simp only [hq, hstep, hrun]
      rfl

theorem countP_eq_count (l : List String) (n : String) :
    l.countP (fun m => m = n) = l.count n := by
  rw [List.count_eq_countP]
  apply List.countP_congr
  intro m _
  simp only [decide_eq_true_eq, beq_iff_eq]

/-- The initial state of a well-typed input satisfies the invariant. -/
theorem WF_init {students : List Student} {schools : List (String × Nat)}
    (hwt : WellTyped students schools) :
    WF students (initState students schools) := by
  obtain ⟨hnds, hndsch, hcap⟩ := hwt
  have hidx0 : ∀ n, getIdx (students.map (fun st => (st.name, 0))) n = 0 := by
    intro n
    unfold getIdx
    cases hf : (students.map (fun st => (st.name, 0))).find? (fun p => p.1 = n) with
    | none => rfl
    | some p =>
      have hp := List.mem_of_find?_eq_some hf
      rcases List.mem_map.mp hp with ⟨st, _, hst⟩
      rw [← hst]
      rfl
  refine ⟨hnds, ?_, ?_, ?_, ?_, ?_, ?_, ?_, ?_, ?_⟩
  · show ((schools.map (fun p => (p.1, (⟨p.2, []⟩ : SchoolData)))).map
      (fun p => p.1)).Nodup
    rw [List.map_map]
    exact hndsch
  · show ((students.map (fun st => (st.name, 0))).map (fun p => p.1)) =
      students.map (fun st => st.name)
    rw [List.map_map]
    rfl
  · intro n hn
    exact hn
  · intro p hp q hq
    rcases List.mem_map.mp hp with ⟨r, _, hr⟩
    rw [← hr] at hq
    simp at hq
  · intro st _
    show getIdx (students.map (fun u => (u.name, 0))) st.name ≤ st.preferences.length
    rw [hidx0]
    omega
  · intro p hp
    rcases List.mem_map.mp hp with ⟨r, hrmem, hr⟩
    rw [← hr]
    exact hcap r hrmem
  · intro p hp
    rcases List.mem_map.mp hp with ⟨r, _, hr⟩
    rw [← hr]
    simp
  · intro p hp q hq
    rcases List.mem_map.mp hp with ⟨r, _, hr⟩
    rw [← hr] at hq
    simp at hq
  · intro n
    unfold occCount initState
    have hzero : ((schools.map (fun p => (p.1, (⟨p.2, []⟩ : SchoolData)))).map
        (fun p => p.2.accepted.countP (fun q => q.1 = n))).sum = 0 := by
      rw [List.map_map]
      apply List.sum_eq_zero
      intro x hx
      rcases List.mem_map.mp hx with ⟨r, _, hr⟩
      rw [← hr]
      rfl
    simp only at hzero ⊢
    rw [hzero, countP_eq_count]
    have := List.nodup_iff_count_le_one.mp hnds n
    omega

/-- Measure of the initial state: the fuel bound used by the engine. -/
theorem measure_init (students : List Student) (schools : List (String × Nat)) :
    stateMeasure students (initState students schools) = fuelFor students := by
  unfold stateMeasure initState remPrefs fuelFor
  simp only [List.length_map]
  congr 1
  refine congrArg List.sum (List.map_congr_left ?_)
  intro st _
  have : getIdx (students.map (fun u => (u.name, 0))) st.name = 0 := by
    unfold getIdx
    cases hf : (students.map (fun u => (u.name, 0))).find? (fun p => p.1 = st.name) with
    | none => rfl
    | some p =>
      have hp := List.mem_of_find?_eq_some hf
      rcases List.mem_map.mp hp with ⟨u, _, hu⟩
      rw [← hu]
      rfl
  rw [this]
  omega

/-! ### The animation session simulates the batch engine -/

theorem animProj_init (students : List Student) (schools : List (String × Nat)) :
    animProj (animInit students schools) = initState students schools := rfl

/-- One animation step acts on the algorithm state exactly as one engine
step; the extra animation fields (step counter, history, highlights) do not
influence it. -/
theorem animation_step_proj (students : List Student) (student : String)
    (rest : List String) (a : AnimState) :
    (animation_run_step students student rest a).map animProj =
      engineStep students student rest (animProj a) := by
  rw [animation_run_step, engineStep]
  simp only [animProj]
  by_cases hlt : getIdx a.prefIndex student < (getPrefs students student).length
  · simp only [dif_pos hlt]
    cases hlk : lookup a.schools
        ((getPrefs students student).get ⟨getIdx a.prefIndex student, hlt⟩) with
    | none =>
      simp only [hlk]
      rfl
    | some data =>
      simp only [hlk]
      by_cases hcap : data.accepted.length < data.capacity
      · simp only [if_pos hcap]
        rfl
      · simp only [if_neg hcap]
        cases hsort : sortAsc data.accepted with
        | nil =>
          simp only [hsort]
          rfl
        | cons low tl =>
          simp only [hsort]
          by_cases hsc : low.2 < getScore students student
          · simp only [if_pos hsc]
            rfl
          · simp only [if_neg hsc]
            rfl
  · simp only [dif_neg hlt]
    rfl

/-- Driving the session for any amount of fuel tracks the engine run on
the projected state. -/
theorem animation_run_proj (students : List Student) :
    ∀ (fuel : Nat) (a : AnimState),
      (animationRun students fuel a).map animProj =
        (engineRun students fuel (animProj a)).map (fun p => p.1) := by
  intro fuel
  induction fuel with
  | zero =>
    intro a
    by_cases hq : a.unmatched = []
    · simp [animationRun, engineRun, animProj, hq]
    · simp [animationRun, engineRun, animProj, hq]
  | succ fuel ih =>
    intro a
    cases hq : a.unmatched with
    | nil =>
      rw [animationRun, engineRun]
      simp only [animProj, hq]
      simp [animProj, hq]
    | cons student rest =>
      rw [animationRun, engineRun]
      simp only [animProj, hq]
      have hstep := animation_step_proj students student rest a
      simp only [animProj, hq] at hstep
      cases hanim : animation_run_step students student rest a with
      | none =>
        rw [hanim] at hstep
        simp only [Option.map_none'] at hstep
        rw [← hstep]
        rfl
      | some a' =>
        rw [hanim] at hstep
        simp only [Option.map_some'] at hstep
        rw [← hstep]
        simp only []
        rw [ih a']
        cases engineRun students fuel (animProj a') <;> rfl

/-! ### Stability: lower bounds of full schools persist -/

theorem FullLB_step {students : List Student} {student : String}
    {rest : List String} {s s' : EngineState} (hwf : WF students s)
    (h : engineStep students student rest s = some s') {sc : String} {x : Int}
    (hflb : FullLB sc x s) : FullLB sc x s' := by
  obtain ⟨d, hlkd, hfull, hlb⟩ := hflb
  have hsc_key : sc ∈ s.schools.map (fun p => p.1) :=
    List.mem_map_of_mem (fun p => p.1) (lookup_mem hlkd)
  rcases engineStep_cases h with
    ⟨hlt, hs'⟩ |
    ⟨hlt, ⟨hlk, hs'⟩ |
      ⟨data, hlk, ⟨hcap, hs'⟩ | ⟨hcap, low, tl, hsort, ⟨hsc, hs'⟩ | ⟨hsc, hs'⟩⟩⟩⟩
  · exact hs' ▸ ⟨d, hlkd, hfull, hlb⟩
  · exact hs' ▸ ⟨d, hlkd, hfull, hlb⟩
  · -- acceptance: cannot target sc, which is already full
    subst hs'
    by_cases hsch : (getPrefs students student).get
        ⟨getIdx s.prefIndex student, hlt⟩ = sc
    · rw [hsch] at hlk
      rw [hlkd] at hlk
      have hdd : data = d := by
        injection hlk with hh
        exact hh.symm
      subst hdd
      omega
    · refine ⟨d, ?_, hfull, hlb⟩
      show lookup (dictSet s.schools _ _) sc = some d
      rw [lookup_dictSet_ne _ _ _ _ (fun hh => hsch hh.symm)]
      exact hlkd
  · -- replacement: the minimum leaves, a strictly higher score enters
    subst hs'
    by_cases hsch : (getPrefs students student).get
        ⟨getIdx s.prefIndex student, hlt⟩ = sc
    · rw [hsch] at hlk
      rw [hlkd] at hlk
      have hdd : data = d := by
        injection hlk with hh
        exact hh.symm
      subst hdd
      have hlow_mem : low ∈ data.accepted :=
        mem_sortAsc.mp (hsort ▸ List.mem_cons_self low tl)
      have hxlow : x ≤ low.2 := hlb low hlow_mem
      refine ⟨⟨data.capacity,
        (data.accepted.erase low) ++ [(student, getScore students student)]⟩, ?_, ?_, ?_⟩
      · show lookup (dictSet s.schools _ _) sc = some _
        rw [← hsch]
        exact lookup_dictSet_self _ (hsch ▸ hsc_key)
      · show data.capacity ≤ ((data.accepted.erase low) ++ [_]).length
        have herase := List.length_erase_of_mem hlow_mem
        have hpos : 0 < data.accepted.length := List.length_pos.mpr
          (fun hnil => by rw [hnil] at hlow_mem; exact absurd hlow_mem (List.not_mem_nil low))
        simp only [List.length_append, List.length_singleton]
        omega
      · intro p hp
        rcases List.mem_append.mp hp with hp | hp
        · exact hlb p (List.erase_subset _ _ hp)
        · rw [List.mem_singleton.mp hp]
          exact le_of_lt (lt_of_le_of_lt hxlow hsc)
    · refine ⟨d, ?_, hfull, hlb⟩
      show lookup (dictSet s.schools _ _) sc = some d
      rw [lookup_dictSet_ne _ _ _ _ (fun hh => hsch hh.symm)]
      exact hlkd
  · exact hs' ▸ ⟨d, hlkd, hfull, hlb⟩

theorem FullLB_reaches {students : List Student} {s t : EngineState}
    (hwf : WF students s) (h : Reaches students s t) {sc : String} {x : Int}
    (hflb : FullLB sc x s) : FullLB sc x t := by
  induction h with
  | refl => exact hflb
  | tail student rest hr hq hstep ih =>
    exact FullLB_step (WF_reaches hwf hr) hstep ih

/-! ### Absence: a discarded student is never admitted later -/

theorem Absent_step {students : List Student} {student : String}
    {rest : List String} {s s' : EngineState} (hq : s.unmatched = student :: rest)
    (h : engineStep students student rest s = some s') {n : String}
    (habs : Absent n s) : Absent n s' := by
  obtain ⟨hqn, hacc⟩ := habs
  rw [hq] at hqn
  have hne_student : student ≠ n := fun hh => hqn (hh ▸ List.mem_cons_self _ _)
  have hnrest : n ∉ rest := fun hh => hqn (List.mem_cons_of_mem _ hh)
  have hsnoc : ∀ m : String, m ≠ n → n ∉ rest ++ [m] := by
    intro m hm hmem
    rcases List.mem_append.mp hmem with hmem | hmem
    · exact hnrest hmem
    · exact hm (List.mem_singleton.mp hmem).symm
  rcases engineStep_cases h with
    ⟨hlt, hs'⟩ |
    ⟨hlt, ⟨hlk, hs'⟩ |
      ⟨data, hlk, ⟨hcap, hs'⟩ | ⟨hcap, low, tl, hsort, ⟨hsc, hs'⟩ | ⟨hsc, hs'⟩⟩⟩⟩ <;>
    subst hs'
  · exact ⟨hnrest, hacc⟩
  · exact ⟨hsnoc student hne_student, hacc⟩
  · refine ⟨hnrest, forall_mem_dictSet hacc ?_⟩
    intro q hqmem
    rcases List.mem_append.mp hqmem with hqmem | hqmem
    · exact hacc _ (lookup_mem hlk) q hqmem
    · rw [List.mem_singleton.mp hqmem]
      exact hne_student
  · have hlow_mem : low ∈ data.accepted :=
      mem_sortAsc.mp (hsort ▸ List.mem_cons_self low tl)
    have hlow_ne : low.1 ≠ n := hacc _ (lookup_mem hlk) low hlow_mem
    refine ⟨hsnoc low.1 hlow_ne, forall_mem_dictSet hacc ?_⟩
    intro q hqmem
    rcases List.mem_append.mp hqmem with hqmem | hqmem
    · exact hacc _ (lookup_mem hlk) q (List.erase_subset _ _ hqmem)
    · rw [List.mem_singleton.mp hqmem]
      exact hne_student
  · exact ⟨hsnoc student hne_student, hacc⟩

theorem Absent_reaches {students : List Student} {s t : EngineState}
    (h : Reaches students s t) {n : String} (habs : Absent n s) : Absent n t := by
  induction h with
  | refl => exact habs
  | tail student rest hr hq hstep ih => exact Absent_step hq hstep ih

/-! ### Schools that nobody lists stay empty; keys and capacities persist -/

theorem untouched_step {students : List Student} {student : String}
    {rest : List String} {s s' : EngineState} (hwf : WF students s)
    (hq : s.unmatched = student :: rest)
    (h : engineStep students student rest s = some s') {sc : String}
    (hna : NeverApplied students sc)
    (hemp : ∀ p ∈ s.schools, p.1 = sc → p.2.accepted = []) :
    ∀ p ∈ s'.schools, p.1 = sc → p.2.accepted = [] := by
  have hstudent_mem : student ∈ students.map (fun st => st.name) :=
    hwf.queueNames student (by rw [hq]; exact List.mem_cons_self _ _)
  obtain ⟨stu, hstu_mem, hstu_name⟩ := List.mem_map.mp hstudent_mem
  have hprefs : getPrefs students student = stu.preferences := by
    rw [← hstu_name]
    exact getPrefs_eq hwf.nodupStudents hstu_mem
  rcases engineStep_cases h with
    ⟨hlt, hs'⟩ |
    ⟨hlt, ⟨hlk, hs'⟩ |
      ⟨data, hlk, ⟨hcap, hs'⟩ | ⟨hcap, low, tl, hsort, ⟨hsc, hs'⟩ | ⟨hsc, hs'⟩⟩⟩⟩ <;>
    subst hs'
  · exact hemp
  · exact hemp
  · have hschne : (getPrefs students student).get
        ⟨getIdx s.prefIndex student, hlt⟩ ≠ sc := by
      intro hh
      refine hna stu hstu_mem ?_
      rw [← hh, ← hprefs]
      exact List.get_mem _ _ hlt
    intro p hp hpk
    rcases mem_dictSet hp with hp' | hp'
    · rw [hp'] at hpk
      exact absurd hpk hschne
    · exact hemp p hp' hpk
  · have hschne : (getPrefs students student).get
        ⟨getIdx s.prefIndex student, hlt⟩ ≠ sc := by
      intro hh
      refine hna stu hstu_mem ?_
      rw [← hh, ← hprefs]
      exact List.get_mem _ _ hlt
    intro p hp hpk
    rcases mem_dictSet hp with hp' | hp'
    · rw [hp'] at hpk
      exact absurd hpk hschne
    · exact hemp p hp' hpk
  · exact hemp

theorem untouched_reaches {students : List Student} {s t : EngineState}
    (hwf : WF students s) (h : Reaches students s t) {sc : String}
    (hna : NeverApplied students sc)
    (hemp : ∀ p ∈ s.schools, p.1 = sc → p.2.accepted = []) :
    ∀ p ∈ t.schools, p.1 = sc → p.2.accepted = [] := by
  induction h with
  | refl => exact hemp
  | tail student rest hr hq hstep ih =>
    exact untouched_step (WF_reaches hwf hr) hq hstep hna ih

/-- The school keys and capacities never change during a run. -/
theorem schoolsShape_step {students : List Student} {student : String}
    {rest : List String} {s s' : EngineState} (hwf : WF students s)
    (h : engineStep students student rest s = some s') :
    s'.schools.map (fun p => (p.1, p.2.capacity)) =
      s.schools.map (fun p => (p.1, p.2.capacity)) := by
  rcases engineStep_cases h with
    ⟨hlt, hs'⟩ |
    ⟨hlt, ⟨hlk, hs'⟩ |
      ⟨data, hlk, ⟨hcap, hs'⟩ | ⟨hcap, low, tl, hsort, ⟨hsc, hs'⟩ | ⟨hsc, hs'⟩⟩⟩⟩ <;>
    subst hs'
  · rfl
  · rfl
  · obtain ⟨pre, post, hd, _, _, hset⟩ := dict_decomp hwf.nodupSchools hlk
    show (dictSet s.schools _ _).map _ = _
    rw [hset, hd]
    simp [List.map_append]
  · obtain ⟨pre, post, hd, _, _, hset⟩ := dict_decomp hwf.nodupSchools hlk
    show (dictSet s.schools _ _).map _ = _
    rw [hset, hd]
    simp [List.map_append]
  · rfl

theorem schoolsShape_reaches {students : List Student} {s t : EngineState}
    (hwf : WF students s) (h : Reaches students s t) :
    t.schools.map (fun p => (p.1, p.2.capacity)) =
      s.schools.map (fun p => (p.1, p.2.capacity)) := by
  induction h with
  | refl => rfl
  | tail student rest hr hq hstep ih =>
    rw [schoolsShape_step (WF_reaches hwf hr) hstep, ih]

/-! ### Sensitivity helpers -/

/-- Truncation of an integer value is the identity. -/
theorem pyInt_intCast (z : Int) : pyInt ((z : ℚ)) = z := by
  unfold pyInt
  by_cases h : (0 : ℚ) ≤ (z : ℚ)
  · rw [if_pos h, Int.floor_intCast]
  · rw [if_neg h]
    have hz : -((z : ℚ)) = (((-z : Int)) : ℚ) := by push_cast; ring
    rw [hz, Int.floor_intCast]
    omega

/-- Factor 1 leaves every adjusted student identical to the original. -/
theorem adjustStudents_one (students : List Student) :
    adjustStudents students 1 = students := by
  unfold adjustStudents
  have hcongr : ∀ st ∈ students,
      (⟨st.name, st.preferences, pyInt ((st.score : ℚ) * 1)⟩ : Student) = id st := by
    intro st _
    simp only [mul_one, pyInt_intCast, id]
  rw [List.map_congr_left hcongr, List.map_id]

theorem symmDiffCard_self (l : List String) : symmDiffCard l l = 0 := by
  unfold symmDiffCard
  have h1 : (l.dedup).filter (fun n => decide (n ∉ l)) = [] := by
    rw [List.filter_eq_nil_iff]
    intro a ha
    have hmem : a ∈ l := List.mem_dedup.mp ha
    simp [hmem]
  simp [h1]

theorem count_matching_changes_self (alloc : List (String × List String)) :
    count_matching_changes alloc alloc = 0 := by
  unfold count_matching_changes
  apply List.sum_eq_zero
  intro x hx
  rcases List.mem_map.mp hx with ⟨k, _, hk⟩
  rw [← hk]
  exact symmDiffCard_self _

/-! ### Remaining auxiliary lemmas for the claims -/

/-- The popped head of the queue occurs nowhere else in the state. -/
theorem head_absent {students : List Student} {student : String}
    {rest : List String} {s : EngineState} (hwf : WF students s)
    (hq : s.unmatched = student :: rest) :
    student ∉ rest ∧ ∀ p ∈ s.schools, ∀ q ∈ p.2.accepted, q.1 ≠ student := by
  have hocc := hwf.occLe student
  unfold occCount at hocc
  rw [hq, countP_cons_name] at hocc
  have hone : (if student = student then 1 else 0) = 1 := if_pos rfl
  rw [hone] at hocc
  constructor
  · intro hmem
    have hpos : 0 < rest.countP (fun m => m = student) :=
      List.countP_pos.mpr ⟨student, hmem, by simp⟩
    omega
  · intro p hp q hqmem hqn
    have hpos : 0 < p.2.accepted.countP (fun q => q.1 = student) :=
      List.countP_pos.mpr ⟨q, hqmem, by simp [hqn]⟩
    have hle : p.2.accepted.countP (fun q => q.1 = student) ≤
        (s.schools.map
          (fun p => p.2.accepted.countP (fun q => q.1 = student))).sum :=
      List.le_sum_of_mem (List.mem_map_of_mem _ hp)
    omega

/-- The school keys of any reachable state are the input school names. -/
theorem keys_reaches {students : List Student} {schools : List (String × Nat)}
    {t : EngineState} (hwt : WellTyped students schools)
    (hreach : Reaches students (initState students schools) t) :
    t.schools.map (fun p => p.1) = schools.map (fun p => p.1) := by
  have hshape := schoolsShape_reaches (WF_init hwt) hreach
  have h2 : (initState students schools).schools.map
      (fun p => (p.1, p.2.capacity)) = schools := by
    show (schools.map (fun p => (p.1, (⟨p.2, []⟩ : SchoolData)))).map
      (fun p => (p.1, p.2.capacity)) = schools
    rw [List.map_map]
    have hcongr : ∀ p ∈ schools,
        ((fun p => (p.1, p.2.capacity)) ∘
          (fun p => (p.1, (⟨p.2, []⟩ : SchoolData)))) p = id p := by
      intro p _
      rfl
    rw [List.map_congr_left hcongr, List.map_id]
  have h3 : t.schools.map (fun p => p.1) =
      (t.schools.map (fun p => (p.1, p.2.capacity))).map (fun q => q.1) := by
    rw [List.map_map]
    rfl
  rw [h3, hshape, h2]

theorem lookup_formatAlloc (S : List (String × SchoolData)) (sc : String) :
    lookup (formatAlloc S) sc =
      (lookup S sc).map
        (fun d => (sortDescByScore d.accepted).map (fun q => q.1)) := by
  induction S with
  | nil => rfl
  | cons p S ih =>
    show lookup ((p.1, (sortDescByScore p.2.accepted).map (fun q => q.1)) ::
      formatAlloc S) sc = _
    rw [lookup_cons, lookup_cons]
    by_cases h : p.1 = sc
    · simp [h]
    · simp [h, ih]

/-! ### Claim theorems -/

/-- C1: for every well-typed input, driving the animation session with
single steps from its initialized state until the unmatched queue is empty
produces the same per-school accepted lists as the batch engine, and hence
the same final allocation (same admitted students per school, in the same
descending-by-score order under the same tie-break). -/
theorem session_engine_equivalence {students : List Student}
    {schools : List (String × Nat)} (hwt : WellTyped students schools) :
    ∃ a t k,
      animationRun students (fuelFor students) (animInit students schools) = some a ∧
      engineRun students (fuelFor students) (initState students schools) = some (t, k) ∧
      a.unmatched = [] ∧ a.schools = t.schools ∧
      gale_shapley_matching students schools = some (formatAlloc a.schools) := by
  obtain ⟨t, k, hrun, hemp, _, _, _⟩ :=
    engineRun_total students (fuelFor students) (initState students schools)
      (WF_init hwt) (le_of_eq (measure_init students schools))
  have hproj := animation_run_proj students (fuelFor students) (animInit students schools)
  rw [animProj_init, hrun] at hproj
  cases hanim : animationRun students (fuelFor students) (animInit students schools) with
  | none =>
    rw [hanim] at hproj
    simp at hproj
  | some a =>
    rw [hanim] at hproj
    simp only [Option.map_some'] at hproj
    have hproj' : animProj a = t := by
      injection hproj
    have hsch : a.schools = t.schools := congrArg EngineState.schools hproj'
    have hunm : a.unmatched = t.unmatched := congrArg EngineState.unmatched hproj'
    refine ⟨a, t, k, rfl, hrun, hunm.trans hemp, hsch, ?_⟩
    unfold gale_shapley_matching
    rw [hrun, hsch]
    rfl

/-- C1 witness at scenario 2. -/
theorem session_engine_equivalence_witness :
    WellTyped scenario2Students scenario2Schools ∧
    ∃ a t k,
      animationRun scenario2Students (fuelFor scenario2Students)
        (animInit scenario2Students scenario2Schools) = some a ∧
      engineRun scenario2Students (fuelFor scenario2Students)
        (initState scenario2Students scenario2Schools) = some (t, k) ∧
      a.unmatched = [] ∧ a.schools = t.schools ∧
      gale_shapley_matching scenario2Students scenario2Schools =
        some (formatAlloc a.schools) :=
  ⟨by decide, session_engine_equivalence (by decide)⟩

/-- C2: for every well-typed input and every reachable state of a run,
every school has at most capacity many accepted students. -/
theorem capacity_invariant {students : List Student}
    {schools : List (String × Nat)} {t : EngineState}
    (hwt : WellTyped students schools)
    (hreach : Reaches students (initState students schools) t) :
    ∀ p ∈ t.schools, p.2.accepted.length ≤ p.2.capacity :=
  (WF_reaches (WF_init hwt) hreach).capInv

/-- C2 witness: the state of scenario 2 reached after the first accept. -/
theorem capacity_invariant_witness :
    WellTyped scenario2Students scenario2Schools ∧
    ∀ p ∈ scenario2Mid.schools, p.2.accepted.length ≤ p.2.capacity :=
  ⟨by decide,
   @capacity_invariant scenario2Students scenario2Schools scenario2Mid (by decide)
     (Reaches.tail "A" ["B"] (Reaches.refl _) (by decide) (by decide))⟩

/-- C3 counterexample: in the Ghost scenario, the first step (an unknown
school) emits no StepRecord at all — the history of the session is still
empty after it — contradicting that every queue pop emits exactly one
record, and in particular that step 1 emits an unknown-slot record. -/
theorem step_record_unknown_slot_cex :
    animation_run_step ghostStudents "C" []
      (animInit ghostStudents ghostSchools) = some ghostMid ∧
    ghostMid.history = [] := by
  refine ⟨by decide, rfl⟩

/-- C3 (amended): a queue pop on an exhausted preference list emits no
StepRecord; a queue pop whose current preference names an unknown school
emits no StepRecord; a queue pop whose current preference names an
existing school emits exactly one StepRecord for that student and school,
with action accepted when the school has space, replaced carrying
precisely the id of the evicted minimum-score member (which is removed
from the accepted list and requeued at the tail) when the applicant
strictly beats the minimum, and rejected otherwise. -/
theorem step_record_emission {students : List Student} {student : String}
    {rest : List String} {a a' : AnimState}
    (h : animation_run_step students student rest a = some a') :
    ((getPrefs students student).length ≤ getIdx a.prefIndex student →
      a'.history = a.history) ∧
    (∀ sc, (getPrefs students student)[getIdx a.prefIndex student]? = some sc →
      lookup a.schools sc = none → a'.history = a.history) ∧
    (∀ sc data,
      (getPrefs students student)[getIdx a.prefIndex student]? = some sc →
      lookup a.schools sc = some data →
      ∃ r, a'.history = a.history ++ [r] ∧ r.student = student ∧ r.school = sc ∧
        ((data.accepted.length < data.capacity ∧
           r.action = StepAction.accepted ∧ r.rejected = none) ∨
         (¬ data.accepted.length < data.capacity ∧
           ∃ low tl, sortAsc data.accepted = low :: tl ∧
             low ∈ data.accepted ∧ (∀ p ∈ data.accepted, low.2 ≤ p.2) ∧
             ((low.2 < getScore students student ∧
                r.action = StepAction.replaced ∧ r.rejected = some low.1 ∧
                a'.schools = dictSet a.schools sc
                  ⟨data.capacity, (data.accepted.erase low) ++
                    [(student, getScore students student)]⟩ ∧
                a'.unmatched = rest ++ [low.1]) ∨
              (¬ low.2 < getScore students student ∧
                r.action = StepAction.rejected ∧ r.rejected = none))))) := by
  rw [animation_run_step] at h
  by_cases hlt : getIdx a.prefIndex student < (getPrefs students student).length
  · have hgetq : (getPrefs students student)[getIdx a.prefIndex student]? =
        some ((getPrefs students student).get ⟨getIdx a.prefIndex student, hlt⟩) := by
      rw [List.getElem?_eq_getElem hlt]
      rfl
    simp only [dif_pos hlt] at h
    cases hlk : lookup a.schools
        ((getPrefs students student).get ⟨getIdx a.prefIndex student, hlt⟩) with
    | none =>
      simp only [hlk] at h
      have ha' := (Option.some.injEq _ _ ▸ h : _ = a')
      refine ⟨?_, ?_, ?_⟩
      · intro hle
        exact absurd hlt (not_lt.mpr hle)
      · intro sc hsc hlk2
        rw [← ha']
      · intro sc data hsc hlk2
        have hge : (getPrefs students student).get
            ⟨getIdx a.prefIndex student, hlt⟩ = sc := by
          have h2 := hgetq.symm.trans hsc
          injection h2
        rw [← hge, hlk] at hlk2
        exact Option.noConfusion hlk2
    | some data' =>
      simp only [hlk] at h
      refine ⟨?_, ?_, ?_⟩
      · intro hle
        exact absurd hlt (not_lt.mpr hle)
      · intro sc hsc hlk2
        have hge : (getPrefs students student).get
            ⟨getIdx a.prefIndex student, hlt⟩ = sc := by
          have h2 := hgetq.symm.trans hsc
          injection h2
        rw [← hge, hlk] at hlk2
        exact Option.noConfusion hlk2
      · intro sc data hsc hlk2
        have hge : (getPrefs students student).get
            ⟨getIdx a.prefIndex student, hlt⟩ = sc := by
          have h2 := hgetq.symm.trans hsc
          injection h2
        subst hge
        have hdd : data' = data := by
          have h2 := hlk.symm.trans hlk2
          injection h2
        subst hdd
        by_cases hcap : data'.accepted.length < data'.capacity
        · simp only [if_pos hcap] at h
          have ha' := (Option.some.injEq _ _ ▸ h : _ = a')
          exact ⟨⟨student, _, StepAction.accepted, none⟩, by rw [← ha'], rfl, rfl,
            Or.inl ⟨hcap, rfl, rfl⟩⟩
        · simp only [if_neg hcap] at h
          cases hsort : sortAsc data'.accepted with
          | nil =>
            simp only [hsort] at h
            exact Option.noConfusion h
          | cons low tl =>
            simp only [hsort] at h
            have hlow_mem : low ∈ data'.accepted :=
              mem_sortAsc.mp (hsort ▸ List.mem_cons_self low tl)
            have hlow_le := sortAsc_head_le hsort
            by_cases hsc2 : low.2 < getScore students student
            · simp only [if_pos hsc2] at h
              have ha' := (Option.some.injEq _ _ ▸ h : _ = a')
              exact ⟨⟨student, _, StepAction.replaced, some low.1⟩, by rw [← ha'],
                rfl, rfl,
                Or.inr ⟨hcap, low, tl, rfl, hlow_mem, hlow_le,
                  Or.inl ⟨hsc2, rfl, rfl, by rw [← ha'], by rw [← ha']⟩⟩⟩
            · simp only [if_neg hsc2] at h
              have ha' := (Option.some.injEq _ _ ▸ h : _ = a')
              exact ⟨⟨student, _, StepAction.rejected, none⟩, by rw [← ha'],
                rfl, rfl,
                Or.inr ⟨hcap, low, tl, rfl, hlow_mem, hlow_le,
                  Or.inr ⟨hsc2, rfl, rfl⟩⟩⟩
  · simp only [dif_neg hlt] at h
    have ha' := (Option.some.injEq _ _ ▸ h : _ = a')
    refine ⟨?_, ?_, ?_⟩
    · intro _
      rw [← ha']
    · intro sc hsc hlk2
      rw [← ha']
    · intro sc data hsc hlk2
      obtain ⟨hlt2, _⟩ := List.getElem?_eq_some_iff.mp hsc
      exact absurd hlt2 hlt

/-- C3 witness: instantiated at the Ghost step 1 (an unknown school,
which emits no record) and at the scenario 2 animation step 2 (a full
school evicting A for B, which emits exactly the replaced record carrying
the evicted id A), with the concrete histories checked. -/
theorem step_record_emission_witness :
    (((getPrefs ghostStudents "C").length ≤
        getIdx (animInit ghostStudents ghostSchools).prefIndex "C" →
      ghostMid.history = (animInit ghostStudents ghostSchools).history) ∧
     (∀ sc, (getPrefs ghostStudents "C")[getIdx
          (animInit ghostStudents ghostSchools).prefIndex "C"]? = some sc →
       lookup (animInit ghostStudents ghostSchools).schools sc = none →
       ghostMid.history = (animInit ghostStudents ghostSchools).history) ∧
     (∀ sc data, (getPrefs ghostStudents "C")[getIdx
          (animInit ghostStudents ghostSchools).prefIndex "C"]? = some sc →
       lookup (animInit ghostStudents ghostSchools).schools sc = some data →
       ∃ r, ghostMid.history =
           (animInit ghostStudents ghostSchools).history ++ [r] ∧
         r.student = "C" ∧ r.school = sc ∧
         ((data.accepted.length < data.capacity ∧
            r.action = StepAction.accepted ∧ r.rejected = none) ∨
          (¬ data.accepted.length < data.capacity ∧
            ∃ low tl, sortAsc data.accepted = low :: tl ∧
              low ∈ data.accepted ∧ (∀ p ∈ data.accepted, low.2 ≤ p.2) ∧
              ((low.2 < getScore ghostStudents "C" ∧
                 r.action = StepAction.replaced ∧ r.rejected = some low.1 ∧
                 ghostMid.schools = dictSet
                   (animInit ghostStudents ghostSchools).schools sc
                   ⟨data.capacity, (data.accepted.erase low) ++
                     [("C", getScore ghostStudents "C")]⟩ ∧
                 ghostMid.unmatched = [] ++ [low.1]) ∨
               (¬ low.2 < getScore ghostStudents "C" ∧
                 r.action = StepAction.rejected ∧ r.rejected = none)))))) ∧
    (((getPrefs scenario2Students "B").length ≤
        getIdx scenario2AnimMid.prefIndex "B" →
      scenario2AnimEvicted.history = scenario2AnimMid.history) ∧
     (∀ sc, (getPrefs scenario2Students "B")[getIdx
          scenario2AnimMid.prefIndex "B"]? = some sc →
       lookup scenario2AnimMid.schools sc = none →
       scenario2AnimEvicted.history = scenario2AnimMid.history) ∧
     (∀ sc data, (getPrefs scenario2Students "B")[getIdx
          scenario2AnimMid.prefIndex "B"]? = some sc →
       lookup scenario2AnimMid.schools sc = some data →
       ∃ r, scenario2AnimEvicted.history = scenario2AnimMid.history ++ [r] ∧
         r.student = "B" ∧ r.school = sc ∧
         ((data.accepted.length < data.capacity ∧
            r.action = StepAction.accepted ∧ r.rejected = none) ∨
          (¬ data.accepted.length < data.capacity ∧
            ∃ low tl, sortAsc data.accepted = low :: tl ∧
              low ∈ data.accepted ∧ (∀ p ∈ data.accepted, low.2 ≤ p.2) ∧
              ((low.2 < getScore scenario2Students "B" ∧
                 r.action = StepAction.replaced ∧ r.rejected = some low.1 ∧
                 scenario2AnimEvicted.schools = dictSet
                   scenario2AnimMid.schools sc
                   ⟨data.capacity, (data.accepted.erase low) ++
                     [("B", getScore scenario2Students "B")]⟩ ∧
                 scenario2AnimEvicted.unmatched = [] ++ [low.1]) ∨
               (¬ low.2 < getScore scenario2Students "B" ∧
                 r.action = StepAction.rejected ∧ r.rejected = none)))))) ∧
    ghostMid.history = [] ∧
    scenario2AnimEvicted.history =
      [⟨"A", "X", StepAction.accepted, none⟩,
       ⟨"B", "X", StepAction.replaced, some "A"⟩] ∧
    lookup scenario2AnimEvicted.schools "X" = some ⟨1, [("B", 90)]⟩ :=
  ⟨@step_record_emission ghostStudents "C" []
     (animInit ghostStudents ghostSchools) ghostMid (by decide),
   @step_record_emission scenario2Students "B" []
     scenario2AnimMid scenario2AnimEvicted (by decide),
   rfl, rfl, by decide⟩

/-- C4 counterexample: scenario 2 performs 3 queue pops while the
preference-list lengths sum to 2, refuting the bound of the sum alone. -/
theorem pop_bound_cex :
    WellTyped scenario2Students scenario2Schools ∧
    (engineRun scenario2Students (fuelFor scenario2Students)
        (initState scenario2Students scenario2Schools)).map
      (fun p => p.2) = some 3 ∧
    (scenario2Students.map (fun st => st.preferences.length)).sum = 2 ∧
    ¬ (3 ≤ 2) := by
  refine ⟨by decide, by decide, by decide, by decide⟩

/-- C4 (amended): for every finite well-typed input the worklist loop
terminates with an empty queue, and the total number of queue pops is at
most the sum of all preference-list lengths plus the number of
applicants. -/
theorem termination_pop_bound {students : List Student}
    {schools : List (String × Nat)} (hwt : WellTyped students schools) :
    ∃ t k,
      engineRun students (fuelFor students) (initState students schools) =
        some (t, k) ∧
      t.unmatched = [] ∧
      k ≤ (students.map (fun st => st.preferences.length)).sum +
        students.length := by
  obtain ⟨t, k, hrun, hemp, hk, _, _⟩ :=
    engineRun_total students (fuelFor students) (initState students schools)
      (WF_init hwt) (le_of_eq (measure_init students schools))
  refine ⟨t, k, hrun, hemp, ?_⟩
  rw [measure_init] at hk
  exact hk

/-- C4 witness at scenario 2. -/
theorem termination_pop_bound_witness :
    WellTyped scenario2Students scenario2Schools ∧
    ∃ t k,
      engineRun scenario2Students (fuelFor scenario2Students)
        (initState scenario2Students scenario2Schools) = some (t, k) ∧
      t.unmatched = [] ∧
      k ≤ (scenario2Students.map (fun st => st.preferences.length)).sum +
        scenario2Students.length :=
  ⟨by decide, termination_pop_bound (by decide)⟩

/-- C5: at termination of the engine, for every school at capacity, every
finally admitted student has a score at least that of every student who,
during the run, applied to that school and was rejected or evicted by
it. -/
theorem stability_no_blocking {students : List Student}
    {schools : List (String × Nat)} {t t' tf : EngineState}
    {student : String} {rest : List String} {sc x : String} {df : SchoolData}
    (hwt : WellTyped students schools)
    (hreach : Reaches students (initState students schools) t)
    (happ : AppliedAndRejected students t student rest sc x)
    (hstep : engineStep students student rest t = some t')
    (hreach' : Reaches students t' tf) (hterm : tf.unmatched = [])
    (hlkf : lookup tf.schools sc = some df)
    (hfullf : df.accepted.length = df.capacity) :
    ∀ p ∈ df.accepted, getScore students x ≤ p.2 := by
  obtain ⟨hq, hpref, d, low, tl, hlkd, hfull, hsort, hbranch⟩ := happ
  have hwf_t : WF students t := WF_reaches (WF_init hwt) hreach
  have hwf_t' : WF students t' := WF_step hwf_t hq hstep
  obtain ⟨hlt, hget⟩ := List.getElem?_eq_some_iff.mp hpref
  have hget' : (getPrefs students student).get
      ⟨getIdx t.prefIndex student, hlt⟩ = sc := hget
  have hlow_mem : low ∈ d.accepted :=
    mem_sortAsc.mp (hsort ▸ List.mem_cons_self low tl)
  have hlow_le := sortAsc_head_le hsort
  have hncap : ¬ d.accepted.length < d.capacity := by omega
  rw [engineStep] at hstep
  simp only [dif_pos hlt] at hstep
  rw [hget'] at hstep
  simp only [hlkd] at hstep
  simp only [if_neg hncap] at hstep
  simp only [hsort] at hstep
  have hflb : FullLB sc (getScore students x) t' := by
    rcases hbranch with ⟨hns, hx⟩ | ⟨hlo, hx⟩
    · -- rejected: the applicant itself is turned away
      subst hx
      simp only [if_neg hns] at hstep
      have ht' := (Option.some.injEq _ _ ▸ hstep : _ = t')
      refine ⟨d, ?_, hfull, ?_⟩
      · rw [← ht']
        exact hlkd
      · intro p hp
        exact le_trans (not_lt.mp hns) (hlow_le p hp)
    · -- evicted: the minimum-score member is removed
      subst hx
      simp only [if_pos hlo] at hstep
      have ht' := (Option.some.injEq _ _ ▸ hstep : _ = t')
      have hxscore : getScore students low.1 = low.2 :=
        (hwf_t.scoresOk _ (lookup_mem hlkd) low hlow_mem).symm
      rw [hxscore]
      have hsc_key : sc ∈ t.schools.map (fun p => p.1) :=
        List.mem_map_of_mem (fun p => p.1) (lookup_mem hlkd)
      refine ⟨⟨d.capacity,
        (d.accepted.erase low) ++ [(student, getScore students student)]⟩, ?_, ?_, ?_⟩
      · rw [← ht']
        exact lookup_dictSet_self _ hsc_key
      · have herase := List.length_erase_of_mem hlow_mem
        have hpos : 0 < d.accepted.length := List.length_pos.mpr
          (fun hnil => by
            rw [hnil] at hlow_mem
            exact absurd hlow_mem (List.not_mem_nil low))
        simp only [List.length_append, List.length_singleton]
        omega
      · intro p hp
        rcases List.mem_append.mp hp with hp | hp
        · exact hlow_le p (List.erase_subset _ _ hp)
        · rw [List.mem_singleton.mp hp]
          exact le_of_lt hlo
  obtain ⟨d2, hlk2, _, hlb2⟩ := FullLB_reaches hwf_t' hreach' hflb
  have hd2 : d2 = df := by
    have := hlk2.symm.trans hlkf
    injection this
  exact hd2 ▸ hlb2

/-- C5 witness at scenario 2: A is evicted from X by B; at termination
X is full with [B] and the score of A (70) is at most 90. -/
theorem stability_no_blocking_witness :
    WellTyped scenario2Students scenario2Schools ∧
    ∀ p ∈ (⟨1, [("B", 90)]⟩ : SchoolData).accepted,
      getScore scenario2Students "A" ≤ p.2 := by
  refine ⟨by decide, ?_⟩
  refine @stability_no_blocking scenario2Students scenario2Schools
    scenario2Mid scenario2AfterEvict scenario2Final "B" [] "X" "A"
    ⟨1, [("B", 90)]⟩ (by decide)
    (Reaches.tail "A" ["B"] (Reaches.refl _) (by decide) (by decide))
    ⟨rfl, by decide, ⟨1, [("A", 70)]⟩, ("A", 70), [], by decide, by decide,
      by decide, Or.inr ⟨by decide, rfl⟩⟩
    (by decide)
    (Reaches.tail "A" [] (Reaches.refl _) (by decide) (by decide))
    rfl (by decide) (by decide)

/-- C6: when the popped applicant applies to an existing school at
capacity, the head of the stable ascending sort is a deterministically
chosen minimum-score member; a strictly greater score removes it, admits
the applicant, and requeues the evicted name at the tail with its cursor
unchanged, while a score that is not strictly greater requeues the
applicant itself at the tail; in scenario 2 the final allocation is
X mapped to [B] with A permanently unmatched. -/
theorem eviction_rule {students : List Student} {student : String}
    {rest : List String} {s : EngineState} {data : SchoolData}
    {low : String × Int} {tl : List (String × Int)}
    (hlt : getIdx s.prefIndex student < (getPrefs students student).length)
    (hlk : lookup s.schools
      ((getPrefs students student).get ⟨getIdx s.prefIndex student, hlt⟩) = some data)
    (hcap : data.capacity ≤ data.accepted.length)
    (hsort : sortAsc data.accepted = low :: tl) :
    (low ∈ data.accepted ∧ ∀ p ∈ data.accepted, low.2 ≤ p.2) ∧
    (low.2 < getScore students student →
      engineStep students student rest s = some
        ⟨dictSet s.schools
           ((getPrefs students student).get ⟨getIdx s.prefIndex student, hlt⟩)
           ⟨data.capacity,
            (data.accepted.erase low) ++ [(student, getScore students student)]⟩,
         rest ++ [low.1],
         setIdx s.prefIndex student (getIdx s.prefIndex student + 1)⟩) ∧
    (¬ low.2 < getScore students student →
      engineStep students student rest s = some
        ⟨s.schools, rest ++ [student],
         setIdx s.prefIndex student (getIdx s.prefIndex student + 1)⟩) ∧
    (low.1 ≠ student →
      getIdx (setIdx s.prefIndex student (getIdx s.prefIndex student + 1)) low.1 =
        getIdx s.prefIndex low.1) ∧
    gale_shapley_matching scenario2Students scenario2Schools =
      some [("X", ["B"])] := by
  have hncap : ¬ data.accepted.length < data.capacity := by omega
  refine ⟨⟨mem_sortAsc.mp (hsort ▸ List.mem_cons_self low tl),
    sortAsc_head_le hsort⟩, ?_, ?_, ?_, by decide⟩
  · intro hsc
    rw [engineStep]
    simp only [dif_pos hlt, hlk, if_neg hncap, hsort, if_pos hsc]
  · intro hsc
    rw [engineStep]
    simp only [dif_pos hlt, hlk, if_neg hncap, hsort, if_neg hsc]
  · intro hne
    exact getIdx_setIdx_ne _ _ _ _ hne

/-- C6 witness: the second pop of scenario 2, where B evicts A from the
full school X. -/
theorem eviction_rule_witness :
    ((("A", (70 : Int)) ∈ [("A", (70 : Int))] ∧
      ∀ p ∈ [("A", (70 : Int))], (("A", (70 : Int))).2 ≤ p.2) ∧
    ((("A", (70 : Int))).2 < getScore scenario2Students "B" →
      engineStep scenario2Students "B" [] scenario2Mid = some
        ⟨dictSet scenario2Mid.schools
           ((getPrefs scenario2Students "B").get
             ⟨getIdx scenario2Mid.prefIndex "B", by decide⟩)
           ⟨1, ([("A", (70 : Int))].erase ("A", 70)) ++
             [("B", getScore scenario2Students "B")]⟩,
         [] ++ [("A", (70 : Int)).1],
         setIdx scenario2Mid.prefIndex "B" (getIdx scenario2Mid.prefIndex "B" + 1)⟩) ∧
    (¬ (("A", (70 : Int))).2 < getScore scenario2Students "B" →
      engineStep scenario2Students "B" [] scenario2Mid = some
        ⟨scenario2Mid.schools, [] ++ ["B"],
         setIdx scenario2Mid.prefIndex "B" (getIdx scenario2Mid.prefIndex "B" + 1)⟩) ∧
    ((("A", (70 : Int))).1 ≠ "B" →
      getIdx (setIdx scenario2Mid.prefIndex "B"
          (getIdx scenario2Mid.prefIndex "B" + 1)) ("A", (70 : Int)).1 =
        getIdx scenario2Mid.prefIndex ("A", (70 : Int)).1) ∧
    gale_shapley_matching scenario2Students scenario2Schools =
      some [("X", ["B"])]) ∧
    getScore scenario2Students "B" = 90 ∧ (70 : Int) < 90 :=
  ⟨@eviction_rule scenario2Students "B" [] scenario2Mid ⟨1, [("A", 70)]⟩
      ("A", 70) [] (by decide) (by decide) (by decide) (by decide),
   by decide, by decide⟩

/-- C7 counterexample: int() truncates toward zero rather than flooring:
a score of -3 at factor 1/2 is adjusted to -1, while the floor of the
product is -2. -/
theorem floor_adjustment_cex :
    (adjustStudents ([⟨"N", ["X"], -3⟩] : List Student) (1/2 : ℚ)).map (fun st => st.score) =
      [-1] ∧
    ⌊((-3 : Int) : ℚ) * (1/2 : ℚ)⌋ = -2 ∧ ((-1 : Int) ≠ -2) := by
  refine ⟨?_, by norm_num, by decide⟩
  show [pyInt (((-3 : Int) : ℚ) * (1/2 : ℚ))] = [-1]
  unfold pyInt
  rw [if_neg (by norm_num)]
  norm_num

/-- C7 (amended): the analysis runs the matching on a derived copy of the
applicant list whose scores are int(score * factor) — truncation toward
zero, equal to the floor only for nonnegative products — while names and
preference lists are unchanged; the model is pure, so the original list
is not mutated (the code swaps self.students and restores it before
returning). -/
theorem adjusted_matching_spec (students : List Student)
    (schools : List (String × Nat)) (factor : ℚ) :
    run_adjusted_matching students schools factor =
      gale_shapley_matching (adjustStudents students factor) schools ∧
    (adjustStudents students factor).map (fun st => st.name) =
      students.map (fun st => st.name) ∧
    (adjustStudents students factor).map (fun st => st.preferences) =
      students.map (fun st => st.preferences) ∧
    (∀ st ∈ students,
      (⟨st.name, st.preferences, pyInt ((st.score : ℚ) * factor)⟩ : Student) ∈
        adjustStudents students factor) ∧
    (∀ q : ℚ, 0 ≤ q → pyInt q = ⌊q⌋) := by
  refine ⟨rfl, ?_, ?_, ?_, ?_⟩
  · unfold adjustStudents
    rw [List.map_map]
    rfl
  · unfold adjustStudents
    rw [List.map_map]
    rfl
  · intro st hst
    exact List.mem_map_of_mem _ hst
  · intro q hq
    unfold pyInt
    rw [if_pos hq]

/-- C7 witness at a one-student list and factor 1/2. -/
theorem adjusted_matching_spec_witness :
    (run_adjusted_matching ([⟨"N", ["X"], -3⟩] : List Student) [("X", 1)] (1/2 : ℚ) =
      gale_shapley_matching (adjustStudents ([⟨"N", ["X"], -3⟩] : List Student) (1/2 : ℚ)) [("X", 1)] ∧
    (adjustStudents ([⟨"N", ["X"], -3⟩] : List Student) (1/2 : ℚ)).map (fun st => st.name) =
      ([⟨"N", ["X"], (-3 : Int)⟩] : List Student).map (fun st => st.name) ∧
    (adjustStudents ([⟨"N", ["X"], -3⟩] : List Student) (1/2 : ℚ)).map (fun st => st.preferences) =
      ([⟨"N", ["X"], (-3 : Int)⟩] : List Student).map (fun st => st.preferences) ∧
    (∀ st ∈ [(⟨"N", ["X"], -3⟩ : Student)],
      (⟨st.name, st.preferences, pyInt ((st.score : ℚ) * (1/2 : ℚ))⟩ : Student) ∈
        adjustStudents ([⟨"N", ["X"], -3⟩] : List Student) (1/2 : ℚ)) ∧
    (∀ q : ℚ, 0 ≤ q → pyInt q = ⌊q⌋)) ∧
    0 ≤ (7 : ℚ) / 2 ∧ pyInt ((7 : ℚ) / 2) = 3 := by
  refine ⟨adjusted_matching_spec ([⟨"N", ["X"], -3⟩] : List Student) [("X", 1)] (1/2 : ℚ),
    by norm_num, ?_⟩
  unfold pyInt
  rw [if_pos (by norm_num)]
  norm_num

/-- C8: the sensitivity run at factor 1 reproduces the baseline engine
result exactly, and the change count between the baseline and the
factor-1 allocation is zero. -/
theorem factor_one_idempotent (students : List Student)
    (schools : List (String × Nat)) :
    run_adjusted_matching students schools 1 =
      gale_shapley_matching students schools ∧
    ∀ alloc alloc',
      gale_shapley_matching students schools = some alloc →
      run_adjusted_matching students schools 1 = some alloc' →
      alloc' = alloc ∧ count_matching_changes alloc alloc' = 0 := by
  have heq : run_adjusted_matching students schools 1 =
      gale_shapley_matching students schools := by
    unfold run_adjusted_matching
    rw [adjustStudents_one]
  refine ⟨heq, ?_⟩
  intro alloc alloc' hbase hadj
  rw [heq, hbase] at hadj
  have : alloc' = alloc := by
    injection hadj.symm
  subst this
  exact ⟨rfl, count_matching_changes_self _⟩

/-- C8 witness at scenario 2. -/
theorem factor_one_idempotent_witness :
    (run_adjusted_matching scenario2Students scenario2Schools 1 =
      gale_shapley_matching scenario2Students scenario2Schools) ∧
    gale_shapley_matching scenario2Students scenario2Schools =
      some [("X", ["B"])] ∧
    ([("X", ["B"])] = [("X", ["B"])] ∧
      count_matching_changes [("X", ["B"])] [("X", ["B"])] = 0) := by
  refine ⟨(factor_one_idempotent scenario2Students scenario2Schools).1,
    by decide, ?_⟩
  refine (factor_one_idempotent scenario2Students scenario2Schools).2
    [("X", ["B"])] [("X", ["B"])] (by decide) ?_
  rw [(factor_one_idempotent scenario2Students scenario2Schools).1]
  decide

/-- C9: on well-typed input the engine completes without raising; a
popped applicant with an exhausted (or empty) preference list is simply
dropped, is then absent from the whole state, and stays absent (never
admitted) for the rest of the run; an unknown school requeues the
applicant at the tail with the cursor advanced; an empty queue terminates
the loop normally. -/
theorem error_free_execution {students : List Student}
    {schools : List (String × Nat)} (hwt : WellTyped students schools) :
    (gale_shapley_matching students schools).isSome ∧
    (∀ (s : EngineState) (student : String) (rest : List String),
      (getPrefs students student).length ≤ getIdx s.prefIndex student →
      engineStep students student rest s =
        some ⟨s.schools, rest, s.prefIndex⟩) ∧
    (∀ (s : EngineState) (student : String) (rest : List String),
      WF students s → s.unmatched = student :: rest →
      (getPrefs students student).length ≤ getIdx s.prefIndex student →
      Absent student (⟨s.schools, rest, s.prefIndex⟩ : EngineState)) ∧
    (∀ (s t : EngineState) (n : String),
      Reaches students s t → Absent n s → Absent n t) ∧
    (∀ (s : EngineState) (student : String) (rest : List String)
      (hlt : getIdx s.prefIndex student < (getPrefs students student).length),
      lookup s.schools ((getPrefs students student).get
        ⟨getIdx s.prefIndex student, hlt⟩) = none →
      engineStep students student rest s = some
        ⟨s.schools, rest ++ [student],
         setIdx s.prefIndex student (getIdx s.prefIndex student + 1)⟩) ∧
    (∀ (s : EngineState), s.unmatched = [] → ∀ fuel : Nat,
      engineRun students fuel s = some (s, 0)) := by
  refine ⟨?_, ?_, ?_, ?_, ?_, ?_⟩
  · obtain ⟨t, k, hrun, _, _, _, _⟩ :=
      engineRun_total students (fuelFor students) (initState students schools)
        (WF_init hwt) (le_of_eq (measure_init students schools))
    unfold gale_shapley_matching
    rw [hrun]
    rfl
  · intro s student rest h
    rw [engineStep]
    simp only [dif_neg (not_lt.mpr h)]
  · intro s student rest hwf hq h
    have h2 := head_absent hwf hq
    exact ⟨h2.1, h2.2⟩
  · intro s t n hreach habs
    exact Absent_reaches hreach habs
  · intro s student rest hlt hlk
    rw [engineStep]
    simp only [dif_pos hlt, hlk]
  · intro s hq fuel
    cases fuel with
    | zero => simp [engineRun, hq]
    | succ fuel => simp [engineRun, hq]

/-- C9 witness at scenario 2 (whose run includes a discard pop of A on an
exhausted preference list). -/
theorem error_free_execution_witness :
    WellTyped scenario2Students scenario2Schools ∧
    ((gale_shapley_matching scenario2Students scenario2Schools).isSome ∧
    (∀ (s : EngineState) (student : String) (rest : List String),
      (getPrefs scenario2Students student).length ≤ getIdx s.prefIndex student →
      engineStep scenario2Students student rest s =
        some ⟨s.schools, rest, s.prefIndex⟩) ∧
    (∀ (s : EngineState) (student : String) (rest : List String),
      WF scenario2Students s → s.unmatched = student :: rest →
      (getPrefs scenario2Students student).length ≤ getIdx s.prefIndex student →
      Absent student (⟨s.schools, rest, s.prefIndex⟩ : EngineState)) ∧
    (∀ (s t : EngineState) (n : String),
      Reaches scenario2Students s t → Absent n s → Absent n t) ∧
    (∀ (s : EngineState) (student : String) (rest : List String)
      (hlt : getIdx s.prefIndex student <
        (getPrefs scenario2Students student).length),
      lookup s.schools ((getPrefs scenario2Students student).get
        ⟨getIdx s.prefIndex student, hlt⟩) = none →
      engineStep scenario2Students student rest s = some
        ⟨s.schools, rest ++ [student],
         setIdx s.prefIndex student (getIdx s.prefIndex student + 1)⟩) ∧
    (∀ (s : EngineState), s.unmatched = [] → ∀ fuel : Nat,
      engineRun scenario2Students fuel s = some (s, 0))) :=
  ⟨by decide, @error_free_execution scenario2Students scenario2Schools (by decide)⟩

/-- C10: the allocation returned by the engine has exactly the input
school names as keys (in input order), and a school that no applicant
ever lists is mapped to the empty list. -/
theorem allocation_keys_exact {students : List Student}
    {schools : List (String × Nat)} (hwt : WellTyped students schools) :
    ∃ alloc, gale_shapley_matching students schools = some alloc ∧
      alloc.map (fun p => p.1) = schools.map (fun p => p.1) ∧
      ∀ sc ∈ schools.map (fun p => p.1),
        (∀ st ∈ students, sc ∉ st.preferences) → lookup alloc sc = some [] := by
  obtain ⟨t, k, hrun, hemp, _, hwft, hreach⟩ :=
    engineRun_total students (fuelFor students) (initState students schools)
      (WF_init hwt) (le_of_eq (measure_init students schools))
  refine ⟨formatAlloc t.schools, ?_, ?_, ?_⟩
  · unfold gale_shapley_matching
    rw [hrun]
    rfl
  · unfold formatAlloc
    rw [List.map_map]
    exact keys_reaches hwt hreach
  · intro sc hsc hna
    have hemp_init : ∀ p ∈ (initState students schools).schools,
        p.1 = sc → p.2.accepted = [] := by
      intro p hp _
      rcases List.mem_map.mp hp with ⟨r, _, hr⟩
      rw [← hr]
    have hempty := untouched_reaches (WF_init hwt) hreach hna hemp_init
    have hkey : sc ∈ t.schools.map (fun p => p.1) := by
      rw [keys_reaches hwt hreach]
      exact hsc
    obtain ⟨d, hd⟩ := Option.isSome_iff_exists.mp (lookup_isSome_of_mem_keys hkey)
    have hdemp : d.accepted = [] := hempty _ (lookup_mem hd) rfl
    rw [lookup_formatAlloc, hd]
    simp [hdemp, sortDescByScore]

/-- C10 witness: one student listing only MIT, with a second school that
nobody lists. -/
theorem allocation_keys_exact_witness :
    WellTyped [(⟨"E", ["MIT"], 50⟩ : Student)] [("MIT", 2), ("Empty", 3)] ∧
    ∃ alloc,
      gale_shapley_matching [(⟨"E", ["MIT"], 50⟩ : Student)]
        [("MIT", 2), ("Empty", 3)] = some alloc ∧
      alloc.map (fun p => p.1) =
        ([("MIT", 2), ("Empty", 3)] : List (String × Nat)).map (fun p => p.1) ∧
      ∀ sc ∈ ([("MIT", 2), ("Empty", 3)] : List (String × Nat)).map (fun p => p.1),
        (∀ st ∈ [(⟨"E", ["MIT"], 50⟩ : Student)], sc ∉ st.preferences) →
        lookup alloc sc = some [] :=
  ⟨by decide, allocation_keys_exact (by decide)⟩

end TH
